import Mathlib

/-!
Verification of the quant_ui analytical core against its specification.

Dates are modelled by an arbitrary linearly ordered type (the source uses
ISO-8601 strings, whose lexicographic order is a linear order); Python
floats are idealised as exact rational or real arithmetic.
-/

set_option linter.unusedVariables false
set_option linter.unusedSectionVars false

unseal Rat.inv Rat.mul Rat.add Rat.sub Rat.ofScientific

set_option maxRecDepth 4000

section Calendar

variable {α : Type} [LinearOrder α]

/-- Python's bisect_left returns the leftmost insertion point keeping the
list sorted; on a sorted list this is the number of elements strictly
below the probe. -/
def bisect_left (l : List α) (x : α) : Nat :=
  l.countP (fun y => decide (y < x))

/-- Python's bisect_right returns the rightmost insertion point; on a
sorted list this is the number of elements at or below the probe. -/
def bisect_right (l : List α) (x : α) : Nat :=
  l.countP (fun y => decide (y ≤ x))

/-- Embeds build_calendar_index: the dict comprehension maps each date to
its enumeration index, later entries overwriting earlier ones, so a date
resolves to the index of its last occurrence (unique on valid calendars). -/
def build_calendar_index (cal : List α) : α → Option Nat :=
  fun d => ((cal.enum.filter (fun p => decide (p.2 = d))).getLast?).map Prod.fst

/-- Resolution of the start bound in slice_calendar: exact index if the
dictionary has the date, otherwise the bisect_left insertion point. -/
def resolve_start (cal : List α) (calIdx : α → Option Nat) (s : α) : Nat :=
  match calIdx s with
  | some i => i
  | none => bisect_left cal s

/-- Resolution of the end bound in slice_calendar: exact index if present,
otherwise bisect_right minus one (may be -1). -/
def resolve_end (cal : List α) (calIdx : α → Option Nat) (e : α) : Int :=
  match calIdx e with
  | some i => (i : Int)
  | none => (bisect_right cal e : Int) - 1

/-- Clamped start index: Python max(0, min(start_idx, len(calendar))); the
max with 0 is a no-op on naturals. -/
def clamped_start (cal : List α) (calIdx : α → Option Nat) (s : α) : Nat :=
  min (resolve_start cal calIdx s) cal.length

/-- Clamped end index: Python max(-1, min(end_idx, len(calendar) - 1)). -/
def clamped_end (cal : List α) (calIdx : α → Option Nat) (e : α) : Int :=
  max (-1) (min (resolve_end cal calIdx e) ((cal.length : Int) - 1))

/-- Embeds slice_calendar from src/app/calendar.py. -/
def slice_calendar (cal : List α) (calIdx : α → Option Nat) (s e : α) :
    Except String (List α) :=
  if s > e then .error "from date is after to date"
  else
    let start_idx := clamped_start cal calIdx s
    let end_idx := clamped_end cal calIdx e
    if (start_idx : Int) > end_idx then .ok []
    else .ok ((cal.drop start_idx).take (end_idx + 1 - start_idx).toNat)

end Calendar

section Drawdowns

variable {δ : Type} [Inhabited δ]

/-- Embeds the DrawdownEvent model of src/backend/app/api/v1/schemas.py;
Python int lengths are non-negative here (start index precedes the
terminal index), so Nat is used. -/
structure DrawdownEvent (δ : Type) where
  start : δ
  trough : δ
  recovery : Option δ
  depth : ℚ
  length : Nat
  days_to_trough : Nat
deriving DecidableEq, Repr

/-- Loop state of _compute_drawdowns. The Python keeps current_start_idx,
trough_idx and trough_dd in three variables that are always set and
cleared together; the open episode is therefore one optional triple
(start index, trough index, trough depth). -/
structure DDState (δ : Type) where
  peak : ℚ
  openEp : Option (Nat × Nat × ℚ)
  drawdowns : List ℚ
  events : List (DrawdownEvent δ)

/-- One iteration of the loop body of _compute_drawdowns for index i and
value v. -/
def ddStep (dates : List δ) (st : DDState δ) (iv : Nat × ℚ) : DDState δ :=
  let i := iv.1
  let v := iv.2
  let st1 :=
    if v > st.peak then
      let st0 :=
        match st.openEp with
        | some (s, t, dd) =>
          { st with
            events := st.events ++
              [({ start := dates.getD s default
                  trough := dates.getD t default
                  recovery := some (dates.getD i default)
                  depth := dd
                  length := i - s
                  days_to_trough := t - s } : DrawdownEvent δ)]
            openEp := none }
        | none => st
      { st0 with peak := v }
    else st
  let dd := v / st1.peak - 1
  let st2 := { st1 with drawdowns := st1.drawdowns ++ [dd] }
  if dd < 0 then
    match st2.openEp with
    | none => { st2 with openEp := some (i, i, dd) }
    | some (s, t, tdd) =>
      if dd < tdd then { st2 with openEp := some (s, i, dd) } else st2
  else st2

/-- Embeds _compute_drawdowns from src/backend/app/api/v1/routes.py:
state machine over the equity curve, unrecovered episode flushed at the
end, events sorted ascending by depth. Python's stable sort is embedded
as insertion sort, which is also stable, and a stable ascending sort is
a unique function of its input. -/
def _compute_drawdowns (dates : List δ) (equity : List ℚ) :
    List ℚ × List (DrawdownEvent δ) :=
  let peak0 := match equity with
    | [] => 1
    | v :: _ => v
  let st := equity.enum.foldl (ddStep dates)
    { peak := peak0, openEp := none, drawdowns := [], events := [] }
  let events :=
    match st.openEp with
    | some (s, t, dd) =>
      st.events ++
        [({ start := dates.getD s default
            trough := dates.getD t default
            recovery := none
            depth := dd
            length := equity.length - s - 1
            days_to_trough := t - s } : DrawdownEvent δ)]
    | none => st.events
  (st.drawdowns, List.insertionSort (fun a b => a.depth ≤ b.depth) events)

end Drawdowns

section ClaimC1

/-- Claim C1 as stated is false at the explicit input: with dates 0..4 and
curve [1.0, 1.1, 0.9, 0.95, 1.2], the single completed event does not
have start at the date of the 1.1 peak (date 1), trough at date 2 and
recovery at date 4 — its start is date 2, the first below-peak day. -/
theorem C1_counterexample :
    ((_compute_drawdowns [0, 1, 2, 3, 4]
        [1, 11/10, 9/10, 19/20, 6/5]).2).map
      (fun e => (e.start, e.trough, e.recovery)) ≠ [(1, 2, some 4)] := by
  decide

/-- Claim C1, amended: for the equity curve [1.0, 1.1, 0.9, 0.95, 1.2]
over any five strictly increasing dates, the drawdown analyzer yields
exactly one completed event; its start is the date of the 0.9 value (the
first value below the running peak, coinciding with the trough), its
depth is 0.9/1.1 - 1 = -2/11, and its recovery is the date of the 1.2
value. -/
theorem C1_drawdown_curve (d0 d1 d2 d3 d4 : ℕ)
    (h01 : d0 < d1) (h12 : d1 < d2) (h23 : d2 < d3) (h34 : d3 < d4) :
    (_compute_drawdowns [d0, d1, d2, d3, d4]
        [1, 11/10, 9/10, 19/20, 6/5]).2 =
      [{ start := d2, trough := d2, recovery := some d4, depth := -2/11,
         length := 2, days_to_trough := 0 }] := by
  norm_num [_compute_drawdowns, ddStep, List.enum, List.enumFrom]

/-- Witness for C1_drawdown_curve at dates 0,1,2,3,4. -/
theorem C1_drawdown_curve_witness :
    (_compute_drawdowns [0, 1, 2, 3, 4]
        [1, 11/10, 9/10, 19/20, 6/5]).2 =
      [{ start := 2, trough := 2, recovery := some 4, depth := -2/11,
         length := 2, days_to_trough := 0 }] :=
  C1_drawdown_curve 0 1 2 3 4 (by decide) (by decide) (by decide) (by decide)

end ClaimC1

section CalendarLemmas

variable {α : Type} [LinearOrder α]

/-- A successful calendar-index lookup returns a position that holds the
looked-up date. -/
theorem build_calendar_index_get? {cal : List α} {d : α} {i : Nat}
    (h : build_calendar_index cal d = some i) : cal.get? i = some d := by
  unfold build_calendar_index at h
  obtain ⟨pr, hpr, hfst⟩ := Option.map_eq_some'.mp h
  have hmem := List.mem_of_getLast?_eq_some hpr
  rw [List.mem_filter] at hmem
  obtain ⟨henum, hpred⟩ := hmem
  have hd : pr.2 = d := by simpa using hpred
  have hget := List.mem_enum_iff_get?.mp henum
  rw [← hfst, hget, hd]

/-- Every date present in the calendar has a successful index lookup. -/
theorem build_calendar_index_isSome {cal : List α} {d : α} (h : d ∈ cal) :
    (build_calendar_index cal d).isSome := by
  obtain ⟨n, hn⟩ := List.mem_iff_get.mp h
  have henum : (n.1, d) ∈ cal.enum := by
    rw [List.mem_enum_iff_get?]
    simp [List.get?_eq_get n.2, ← hn, List.get_eq_getElem]
  have hfil : ((n : Nat), d) ∈ cal.enum.filter (fun p => decide (p.2 = d)) := by
    rw [List.mem_filter]
    exact ⟨henum, by simp⟩
  unfold build_calendar_index
  have : (cal.enum.filter (fun p => decide (p.2 = d))) ≠ [] :=
    List.ne_nil_of_mem hfil
  simpa using List.getLast?_isSome.mpr this

end CalendarLemmas

section ClaimC8

/-- Claim C8: on a valid calendar (strictly increasing), slicing from a
calendar date d to d itself yields exactly [d]; and whenever the
clamped resolved start index exceeds the clamped resolved end index
(with a well-ordered request), the slice is the empty list, not an
error. -/
theorem C8_slice_point_and_empty {α : Type} [LinearOrder α] (cal : List α)
    (hsort : cal.Pairwise (· < ·)) :
    (∀ d ∈ cal, slice_calendar cal (build_calendar_index cal) d d = .ok [d]) ∧
    (∀ s e, s ≤ e →
      (clamped_start cal (build_calendar_index cal) s : Int) >
        clamped_end cal (build_calendar_index cal) e →
      slice_calendar cal (build_calendar_index cal) s e = .ok []) := by
  constructor
  · intro d hd
    have hsome : (build_calendar_index cal d).isSome :=
      build_calendar_index_isSome hd
    obtain ⟨i, hi⟩ := Option.isSome_iff_exists.mp hsome
    have hget := build_calendar_index_get? hi
    have hlt : i < cal.length := by
      have := List.get?_eq_some.mp hget
      exact this.1
    have hres : resolve_start cal (build_calendar_index cal) d = i := by
      unfold resolve_start
      rw [hi]
    have hrese : resolve_end cal (build_calendar_index cal) d = (i : Int) := by
      unfold resolve_end
      rw [hi]
    have hstart : clamped_start cal (build_calendar_index cal) d = i := by
      unfold clamped_start
      rw [hres]
      omega
    have hend : clamped_end cal (build_calendar_index cal) d = (i : Int) := by
      unfold clamped_end
      rw [hrese]
      omega
    unfold slice_calendar
    rw [if_neg (lt_irrefl d), hstart, hend, if_neg (by omega)]
    have htn : ((i : Int) + 1 - (i : Nat)).toNat = 1 := by omega
    rw [htn, List.take_one, List.head?_drop, ← List.get?_eq_getElem?, hget]
    rfl
  · intro s e hse hgt
    unfold slice_calendar
    rw [if_neg (not_lt.mpr hse), if_pos hgt]

/-- Witness for C8_slice_point_and_empty: a point slice on [5, 7] and a
weekend-only window on [3, 10]. -/
theorem C8_slice_point_and_empty_witness :
    slice_calendar [5, 7] (build_calendar_index [5, 7]) 7 7 = .ok [7] ∧
    slice_calendar [3, 10] (build_calendar_index [3, 10]) 4 6 = .ok [] :=
  ⟨(C8_slice_point_and_empty [5, 7] (by decide)).1 7 (by decide),
   (C8_slice_point_and_empty [3, 10] (by decide)).2 4 6 (by decide) (by decide)⟩

end ClaimC8

section TargetBuilder

variable {δ : Type} [LinearOrder δ]

/-- Python's str.lower, applied characterwise (String.toLower in Lean,
stated over the character list so that it evaluates on literals). -/
def lower_str (s : String) : String := ⟨s.data.map Char.toLower⟩

/-- One row of the price frame returned by the external price provider
(the qlib D.features call): instrument, date, $open and $close, either
price independently missing. Typed rows model the frame after the
column checks of _build_target_map, which always succeed on well-formed
provider output. -/
structure PriceRow (δ : Type) where
  instrument : String
  date : δ
  openPx : Option ℚ
  closePx : Option ℚ
deriving DecidableEq, Repr

/-- Per-instrument open-price series assembled from the rows: the Python
fills open_map row by row, skipping missing values and overwriting
earlier entries for the same (instrument, date), so a lookup yields the
last non-missing open among matching rows. -/
def open_series (rows : List (PriceRow δ)) (inst : String) (day : δ) : Option ℚ :=
  ((rows.filter (fun r => decide (lower_str r.instrument = inst ∧ r.date = day))).filterMap
    (fun r => r.openPx)).getLast?

/-- Per-instrument close-price series assembled from the rows; same
last-write-wins reading as open_series. -/
def close_series (rows : List (PriceRow δ)) (inst : String) (day : δ) : Option ℚ :=
  ((rows.filter (fun r => decide (lower_str r.instrument = inst ∧ r.date = day))).filterMap
    (fun r => r.closePx)).getLast?

/-- Valid dates of _build_target_map: the sliced calendar with its last
horizon entries dropped (Python calendar[:-horizon] for positive
horizon, the whole slice otherwise). -/
def valid_dates_of (calendar : List δ) (horizon_days : Int) : List δ :=
  if horizon_days > 0 then calendar.take (calendar.length - horizon_days.toNat)
  else calendar

/-- The per-(instrument, day) body of the _build_target_map loop: skip
silently when the future position leaves the sliced calendar, otherwise
dispatch on the target kind, skipping pairs with missing or zero
denominators, and raise on an unknown kind. -/
def target_value (calendar : List δ) (horizon : Nat) (openS closeS : δ → Option ℚ)
    (target : String) (day : δ) (day_idx : Nat) : Except String (Option ℚ) :=
  if h : day_idx + horizon < calendar.length then
    let future_day := calendar.get ⟨day_idx + horizon, h⟩
    let close_future := closeS future_day
    let open_future := openS future_day
    if target = "ret_cc" then
      match close_future with
      | none => .ok none
      | some cf =>
        match closeS day with
        | none => .ok none
        | some cn => if cn = 0 then .ok none else .ok (some (cf / cn - 1))
    else if target = "close_open" then
      match close_future with
      | none => .ok none
      | some cf =>
        match openS day with
        | none => .ok none
        | some op => if op = 0 then .ok none else .ok (some (cf / op - 1))
    else if target = "open_open" then
      match open_future with
      | none => .ok none
      | some opf =>
        match openS day with
        | none => .ok none
        | some op => if op = 0 then .ok none else .ok (some (opf / op - 1))
    else .error ("Unknown target: " ++ target)
  else .ok none

/-- Inner loop of _build_target_map over the valid dates of one
instrument, appending (date, instrument, value) triples in emission
order; a day absent from the sliced-calendar lookup is skipped. -/
def target_rows (calendar : List δ) (lookup : δ → Option Nat) (horizon : Nat)
    (openS closeS : δ → Option ℚ) (target : String) (inst : String) :
    List δ → List (δ × String × ℚ) → Except String (List (δ × String × ℚ))
  | [], acc => .ok acc
  | day :: rest, acc =>
    match lookup day with
    | none => target_rows calendar lookup horizon openS closeS target inst rest acc
    | some day_idx =>
      match target_value calendar horizon openS closeS target day day_idx with
      | .error msg => .error msg
      | .ok none => target_rows calendar lookup horizon openS closeS target inst rest acc
      | .ok (some v) =>
        target_rows calendar lookup horizon openS closeS target inst rest
          (acc ++ [(day, inst, v)])

/-- Outer loop of _build_target_map over the universe. -/
def target_insts (calendar : List δ) (lookup : δ → Option Nat) (horizon : Nat)
    (rows : List (PriceRow δ)) (target : String) (valid_dates : List δ) :
    List String → List (δ × String × ℚ) → Except String (List (δ × String × ℚ))
  | [], acc => .ok acc
  | inst :: rest, acc =>
    match target_rows calendar lookup horizon (open_series rows inst)
        (close_series rows inst) target inst valid_dates acc with
    | .error msg => .error msg
    | .ok acc2 => target_insts calendar lookup horizon rows target valid_dates rest acc2

/-- Embeds _build_target_map from src/app/main.py. The Python nested
dict target_map[day][instrument] = value is flattened to (date,
instrument, value) triples in emission order; each (day, instrument)
key is written at most once per distinct instrument, and a duplicated
universe entry rewrites the identical value, so the flattening is
faithful. The qlib import is modelled as always available, and the
price frame as the typed row list (empty list = empty frame). -/
def _build_target_map (instruments : List String) (s e : δ) (horizon_days : Int)
    (target : String) (calendar_dates : List δ) (calendar_index : δ → Option Nat)
    (rows : List (PriceRow δ)) :
    Except String (List (δ × String × ℚ) × List δ) :=
  if horizon_days < 0 then .error "horizon_days must be non-negative"
  else
    match slice_calendar calendar_dates calendar_index s e with
    | .error msg => .error msg
    | .ok calendar =>
      if calendar.isEmpty then .ok ([], [])
      else
        let valid_dates := valid_dates_of calendar horizon_days
        if rows.isEmpty then .ok ([], valid_dates)
        else
          match target_insts calendar (build_calendar_index calendar)
              horizon_days.toNat rows target valid_dates instruments [] with
          | .error msg => .error msg
          | .ok tm => .ok (tm, valid_dates)

end TargetBuilder

section TargetBuilderLemmas

variable {δ : Type} [LinearOrder δ]

/-- A successful slice is a sublist of the full calendar. -/
theorem slice_calendar_sublist {cal : List δ} {calIdx : δ → Option Nat}
    {s e : δ} {out : List δ}
    (h : slice_calendar cal calIdx s e = .ok out) : out.Sublist cal := by
  unfold slice_calendar at h
  by_cases hse : s > e
  · rw [if_pos hse] at h
    exact absurd h (by simp)
  · rw [if_neg hse] at h
    by_cases hgt : ((clamped_start cal calIdx s : Int) > clamped_end cal calIdx e)
    · rw [if_pos hgt] at h
      simp only [Except.ok.injEq] at h
      rw [← h]
      exact List.nil_sublist cal
    · rw [if_neg hgt] at h
      simp only [Except.ok.injEq] at h
      rw [← h]
      exact ((cal.drop _).take_sublist _).trans (cal.drop_sublist _)

/-- The valid-date list of an empty sliced calendar is empty. -/
theorem valid_dates_of_nil (horizon_days : Int) :
    valid_dates_of ([] : List δ) horizon_days = [] := by
  unfold valid_dates_of
  by_cases h : horizon_days > 0 <;> simp [h]

/-- The valid-date list is non-empty whenever the horizon is smaller than
the sliced calendar's length. -/
theorem valid_dates_of_ne_nil {sliced : List δ} {horizon_days : Int}
    (hlen : horizon_days < (sliced.length : Int)) (hne : sliced ≠ []) :
    valid_dates_of sliced horizon_days ≠ [] := by
  unfold valid_dates_of
  by_cases h : horizon_days > 0
  · rw [if_pos h]
    intro hcon
    rcases List.take_eq_nil_iff.mp hcon with h1 | h1
    · omega
    · exact hne h1
  · rw [if_neg h]
    exact hne

/-- A non-empty valid-date list starts with the head of the sliced
calendar: it is the whole slice or a non-empty prefix of it. -/
theorem valid_dates_of_cons {d0 : δ} {srest : List δ} {horizon_days : Int}
    (hvd : valid_dates_of (d0 :: srest) horizon_days ≠ []) :
    ∃ vrest, valid_dates_of (d0 :: srest) horizon_days = d0 :: vrest := by
  unfold valid_dates_of at hvd ⊢
  by_cases h : horizon_days > 0
  · rw [if_pos h] at hvd ⊢
    cases hk : (d0 :: srest).length - horizon_days.toNat with
    | zero => rw [hk] at hvd; simp at hvd
    | succ k =>
      exact ⟨srest.take k, by simp [List.take_succ_cons]⟩
  · rw [if_neg h]
    exact ⟨srest, rfl⟩

/-- On a list whose head occurs nowhere in its tail, the calendar index
resolves the head to position 0. -/
theorem build_calendar_index_head {d0 : δ} {rest : List δ} (hnd : d0 ∉ rest) :
    build_calendar_index (d0 :: rest) d0 = some 0 := by
  unfold build_calendar_index
  rw [List.enum_cons]
  rw [List.filter_cons]
  have hp : (decide (((0 : ℕ), d0).2 = d0)) = true := by simp
  rw [if_pos hp]
  have hfil : (rest.enumFrom 1).filter (fun p => decide (p.2 = d0)) = [] := by
    rw [List.filter_eq_nil_iff]
    intro x hx
    have hmem := List.mem_enumFrom hx
    simp only [decide_eq_true_eq]
    intro heq
    have hd0 : d0 ∈ rest := by
      rw [← heq, hmem.2.2]
      exact List.getElem_mem _
    exact hnd hd0
  rw [hfil]
  rfl

end TargetBuilderLemmas

/-- Decidable equality for Except results, used to evaluate the builder
on concrete witness inputs. -/
instance {e a : Type} [DecidableEq e] [DecidableEq a] : DecidableEq (Except e a) := fun
  | .error x, .error y =>
    if h : x = y then .isTrue (by rw [h])
    else .isFalse (by intro hc; injection hc; contradiction)
  | .error x, .ok y => .isFalse (by intro hc; exact Except.noConfusion hc)
  | .ok x, .error y => .isFalse (by intro hc; exact Except.noConfusion hc)
  | .ok x, .ok y =>
    if h : x = y then .isTrue (by rw [h])
    else .isFalse (by intro hc; injection hc; contradiction)

section ClaimC9

/-- Claim C9, amended: when the price provider yields no rows and the
sliced calendar is non-empty, the target builder returns an empty
target map paired with the valid-date list without raising; that list
is non-empty whenever the horizon is smaller than the sliced calendar's
length (and can be empty otherwise). -/
theorem C9_empty_rows_returns_valid_dates {δ : Type} [LinearOrder δ]
    (instruments : List String) (s e : δ) (horizon_days : Int) (target : String)
    (calendar_dates : List δ) (calendar_index : δ → Option Nat) (sliced : List δ)
    (h0 : 0 ≤ horizon_days)
    (hsl : slice_calendar calendar_dates calendar_index s e = .ok sliced)
    (hne : sliced ≠ []) :
    _build_target_map instruments s e horizon_days target calendar_dates
        calendar_index [] = .ok ([], valid_dates_of sliced horizon_days) ∧
      (horizon_days < (sliced.length : Int) →
        valid_dates_of sliced horizon_days ≠ []) := by
  constructor
  · unfold _build_target_map
    rw [if_neg (by omega)]
    split
    · next msg heq => rw [hsl] at heq; exact Except.noConfusion heq
    · next cal heq =>
      rw [hsl] at heq
      obtain rfl : sliced = cal := by
        injection heq
      rw [if_neg (by simpa using hne)]
      simp
  · intro hlen
    exact valid_dates_of_ne_nil hlen hne

/-- Witness for C9_empty_rows_returns_valid_dates on the calendar [0, 1]
with horizon 1. -/
theorem C9_empty_rows_returns_valid_dates_witness :
    (_build_target_map ["a"] (0 : ℕ) 1 1 "ret_cc" [0, 1]
        (build_calendar_index [0, 1]) [] = .ok ([], valid_dates_of [0, 1] 1) ∧
      ((1 : Int) < (([0, 1] : List ℕ).length : Int) →
        valid_dates_of ([0, 1] : List ℕ) 1 ≠ [])) :=
  C9_empty_rows_returns_valid_dates ["a"] 0 1 1 "ret_cc" [0, 1]
    (build_calendar_index [0, 1]) [0, 1] (by decide) (by rfl) (by decide)

/-- Claim C9 as stated is false at the explicit input: with calendar [0]
sliced to the non-empty [0] and horizon 1, empty provider rows make the
builder return an empty valid-date list, not a non-empty one. -/
theorem C9_counterexample :
    slice_calendar [0] (build_calendar_index [0]) 0 0 = .ok [0] ∧
      _build_target_map ["a"] (0 : ℕ) 0 1 "ret_cc" [0]
        (build_calendar_index [0]) [] = .ok ([], []) :=
  ⟨rfl, rfl⟩

end ClaimC9

section ClaimC2

/-- Claim C2, amended: over a valid calendar, for every universe, date
range and non-negative horizon whose sliced calendar is non-empty, a
target kind other than ret_cc, close_open and open_open makes the
target builder raise the Unknown target configuration error, provided
the universe is non-empty, the valid-date list (the slice minus its
last horizon entries) is non-empty, and the price provider returns at
least one row; with no price rows the builder instead returns an empty
target map without error (see the counterexample). -/
theorem C2_unknown_target_raises {δ : Type} [LinearOrder δ]
    (instruments : List String) (s e : δ) (horizon_days : Int) (target : String)
    (calendar_dates : List δ) (calendar_index : δ → Option Nat)
    (rows : List (PriceRow δ)) (sliced : List δ)
    (hsort : calendar_dates.Pairwise (· < ·))
    (h0 : 0 ≤ horizon_days)
    (hT1 : target ≠ "ret_cc") (hT2 : target ≠ "close_open")
    (hT3 : target ≠ "open_open")
    (hsl : slice_calendar calendar_dates calendar_index s e = .ok sliced)
    (hvd : valid_dates_of sliced horizon_days ≠ [])
    (hinst : instruments ≠ []) (hrows : rows ≠ []) :
    _build_target_map instruments s e horizon_days target calendar_dates
      calendar_index rows = .error ("Unknown target: " ++ target) := by
  have hslsorted : sliced.Pairwise (· < ·) :=
    hsort.sublist (slice_calendar_sublist hsl)
  have hslne : sliced ≠ [] := by
    intro hcon
    rw [hcon, valid_dates_of_nil] at hvd
    exact hvd rfl
  obtain ⟨d0, srest, rfl⟩ := List.exists_cons_of_ne_nil hslne
  have hd0 : d0 ∉ srest := by
    intro hmem
    have := (List.pairwise_cons.mp hslsorted).1 d0 hmem
    exact lt_irrefl d0 this
  have hlk : build_calendar_index (d0 :: srest) d0 = some 0 :=
    build_calendar_index_head hd0
  have hfut : 0 + horizon_days.toNat < (d0 :: srest).length := by
    unfold valid_dates_of at hvd
    by_cases hz : horizon_days > 0
    · rw [if_pos hz] at hvd
      have hk : (d0 :: srest).length - horizon_days.toNat ≠ 0 := by
        intro hcon
        rw [hcon] at hvd
        simp at hvd
      omega
    · have : horizon_days.toNat = 0 := by omega
      simp [this]
  obtain ⟨vrest, hvde⟩ := valid_dates_of_cons hvd
  obtain ⟨inst0, irest, rfl⟩ := List.exists_cons_of_ne_nil hinst
  have htv : target_value (d0 :: srest) horizon_days.toNat
      (open_series rows inst0) (close_series rows inst0) target d0 0 =
      .error ("Unknown target: " ++ target) := by
    unfold target_value
    rw [dif_pos hfut, if_neg hT1, if_neg hT2, if_neg hT3]
  have hrow : target_rows (d0 :: srest) (build_calendar_index (d0 :: srest))
      horizon_days.toNat (open_series rows inst0) (close_series rows inst0)
      target inst0 (d0 :: vrest) [] = .error ("Unknown target: " ++ target) := by
    simp only [target_rows, hlk, htv]
  have hins : target_insts (d0 :: srest) (build_calendar_index (d0 :: srest))
      horizon_days.toNat rows target (d0 :: vrest) (inst0 :: irest) [] =
      .error ("Unknown target: " ++ target) := by
    simp only [target_insts, hrow]
  unfold _build_target_map
  rw [if_neg (by omega)]
  split
  · next msg heq => rw [hsl] at heq; exact Except.noConfusion heq
  · next cal heq =>
    rw [hsl] at heq
    obtain rfl : (d0 :: srest) = cal := by injection heq
    rw [if_neg (by simp)]
    rw [if_neg (by simpa using hrows)]
    rw [hvde, hins]

/-- Witness for C2_unknown_target_raises: universe [a], calendar [0, 1],
horizon 0, one price row, target kind bogus. -/
theorem C2_unknown_target_raises_witness :
    _build_target_map ["a"] (0 : ℕ) 1 0 "bogus" [0, 1]
        (build_calendar_index [0, 1])
        [{ instrument := "a", date := 0, openPx := some 1, closePx := some 1 }] =
      .error ("Unknown target: " ++ "bogus") :=
  C2_unknown_target_raises ["a"] 0 1 0 "bogus" [0, 1]
    (build_calendar_index [0, 1])
    [{ instrument := "a", date := 0, openPx := some 1, closePx := some 1 }]
    [0, 1] (by decide) (by decide) (by decide) (by decide) (by decide)
    (by rfl) (by decide) (by decide) (by decide)

/-- Claim C2 as stated is false at the explicit input: with the non-empty
sliced calendar [0, 1, 2] and the unknown kind bogus, empty provider
rows make the builder return a target map pair instead of raising. -/
theorem C2_counterexample :
    ¬ ∃ msg, _build_target_map ["a"] (0 : ℕ) 2 0 "bogus" [0, 1, 2]
        (build_calendar_index [0, 1, 2]) [] = .error msg := by
  intro hcon
  obtain ⟨msg, hmsg⟩ := hcon
  have hok : _build_target_map ["a"] (0 : ℕ) 2 0 "bogus" [0, 1, 2]
      (build_calendar_index [0, 1, 2]) [] = .ok ([], [0, 1, 2]) := rfl
  rw [hok] at hmsg
  exact Except.noConfusion hmsg

end ClaimC2

section ClaimC7

variable {δ : Type} [LinearOrder δ]

/-- With horizon 0 and kind ret_cc, any emitted target value is 0: the
future date coincides with the observation date, so the ratio is
close/close with a non-zero denominator. -/
theorem target_value_horizon_zero {calendar : List δ}
    {openS closeS : δ → Option ℚ} {day : δ} {i : Nat} {v : ℚ}
    (hget : calendar.get? i = some day)
    (h : target_value calendar 0 openS closeS "ret_cc" day i = .ok (some v)) :
    v = 0 := by
  obtain ⟨hlt, hgeq⟩ := List.get?_eq_some.mp hget
  unfold target_value at h
  rw [dif_pos (by omega : i + 0 < calendar.length)] at h
  have hfd : calendar.get ⟨i + 0, by omega⟩ = day := hgeq
  rw [hfd] at h
  rw [if_pos rfl] at h
  cases hcs : closeS day with
  | none =>
    simp only [hcs] at h
    exact absurd h (by simp)
  | some c =>
    simp only [hcs] at h
    by_cases hc0 : c = 0
    · rw [if_pos hc0] at h
      exact absurd h (by simp)
    · rw [if_neg hc0] at h
      simp only [Except.ok.injEq, Option.some.injEq] at h
      rw [← h, div_self hc0, sub_self]

/-- The inner loop of the target builder with horizon 0 and kind ret_cc
only ever appends zero-valued triples. -/
theorem target_rows_horizon_zero {calendar : List δ}
    {openS closeS : δ → Option ℚ} {inst : String}
    (days : List δ) (acc out : List (δ × String × ℚ))
    (hacc : ∀ x ∈ acc, x.2.2 = 0)
    (h : target_rows calendar (build_calendar_index calendar) 0 openS closeS
      "ret_cc" inst days acc = .ok out) :
    ∀ x ∈ out, x.2.2 = 0 := by
  induction days generalizing acc with
  | nil =>
    simp only [target_rows, Except.ok.injEq] at h
    rw [← h]
    exact hacc
  | cons day rest ih =>
    simp only [target_rows] at h
    cases hlk : build_calendar_index calendar day with
    | none =>
      simp only [hlk] at h
      exact ih acc hacc h
    | some i =>
      simp only [hlk] at h
      cases htv : target_value calendar 0 openS closeS "ret_cc" day i with
      | error msg =>
        simp only [htv] at h
        exact absurd h (by simp)
      | ok ov =>
        simp only [htv] at h
        cases ov with
        | none => exact ih acc hacc h
        | some v =>
          have hv : v = 0 :=
            target_value_horizon_zero (build_calendar_index_get? hlk) htv
          refine ih (acc ++ [(day, inst, v)]) ?_ h
          intro x hx
          rcases List.mem_append.mp hx with hx | hx
          · exact hacc x hx
          · simp only [List.mem_singleton] at hx
            rw [hx, hv]

/-- The outer loop of the target builder with horizon 0 and kind ret_cc
only ever produces zero-valued triples. -/
theorem target_insts_horizon_zero {calendar : List δ}
    {rows : List (PriceRow δ)} {valid_dates : List δ}
    (instruments : List String) (acc out : List (δ × String × ℚ))
    (hacc : ∀ x ∈ acc, x.2.2 = 0)
    (h : target_insts calendar (build_calendar_index calendar) 0 rows "ret_cc"
      valid_dates instruments acc = .ok out) :
    ∀ x ∈ out, x.2.2 = 0 := by
  induction instruments generalizing acc with
  | nil =>
    simp only [target_insts, Except.ok.injEq] at h
    rw [← h]
    exact hacc
  | cons inst rest ih =>
    simp only [target_insts] at h
    cases hrw : target_rows calendar (build_calendar_index calendar) 0
        (open_series rows inst) (close_series rows inst) "ret_cc" inst
        valid_dates acc with
    | error msg =>
      simp only [hrw] at h
      exact absurd h (by simp)
    | ok acc2 =>
      simp only [hrw] at h
      exact ih acc2 (target_rows_horizon_zero valid_dates acc acc2 hacc hrw) h

/-- Claim C7: with horizon_days = 0 and kind ret_cc, every target value
produced by the target builder equals 0 (the future date equals the
observation date, and zero closes are skipped, never divided by). -/
theorem C7_horizon_zero_ret_cc_targets_zero
    (instruments : List String) (s e : δ) (calendar_dates : List δ)
    (calendar_index : δ → Option Nat) (rows : List (PriceRow δ))
    (tm : List (δ × String × ℚ)) (vd : List δ)
    (h : _build_target_map instruments s e 0 "ret_cc" calendar_dates
      calendar_index rows = .ok (tm, vd)) :
    ∀ x ∈ tm, x.2.2 = 0 := by
  unfold _build_target_map at h
  rw [if_neg (by omega)] at h
  split at h
  · exact Except.noConfusion h
  · next cal heq =>
    by_cases hemp : cal.isEmpty
    · rw [if_pos hemp] at h
      simp only [Except.ok.injEq, Prod.mk.injEq] at h
      rw [← h.1]
      intro x hx
      exact absurd hx (List.not_mem_nil x)
    · rw [if_neg hemp] at h
      by_cases hrows : rows.isEmpty
      · rw [if_pos hrows] at h
        simp only [Except.ok.injEq, Prod.mk.injEq] at h
        rw [← h.1]
        intro x hx
        exact absurd hx (List.not_mem_nil x)
      · rw [if_neg hrows] at h
        cases hti : target_insts cal (build_calendar_index cal) (0 : Int).toNat
            rows "ret_cc" (valid_dates_of cal 0) instruments [] with
        | error msg =>
          rw [hti] at h
          exact Except.noConfusion h
        | ok tm2 =>
          rw [hti] at h
          simp only [Except.ok.injEq, Prod.mk.injEq] at h
          rw [← h.1]
          exact target_insts_horizon_zero instruments [] tm2 (by simp) hti

/-- Witness for C7_horizon_zero_ret_cc_targets_zero: calendar [0, 1],
universe [a], closes 5 and 6; the builder emits the triples
[(0, a, 0), (1, a, 0)], and the theorem applies to the first. -/
theorem C7_horizon_zero_ret_cc_targets_zero_witness :
    ((0 : ℕ), "a", (0 : ℚ)).2.2 = 0 :=
  C7_horizon_zero_ret_cc_targets_zero ["a"] 0 1 [0, 1]
    (build_calendar_index [0, 1])
    [{ instrument := "a", date := 0, openPx := none, closePx := some 5 },
     { instrument := "a", date := 1, openPx := none, closePx := some 6 }]
    [(0, "a", 0), (1, "a", 0)] [0, 1] (by decide)
    ((0 : ℕ), "a", (0 : ℚ)) (by simp)

end ClaimC7

section Rolling

variable {δ : Type}

/-- The four parallel output series of _rolling_metrics (Python keys
ic_mean, ic_std, ic_ir, t_stat), one (date, value-or-none) point per
input date. -/
structure RollingOut (δ : Type) where
  ic_mean : List (δ × Option ℝ)
  ic_std : List (δ × Option ℝ)
  ic_ir : List (δ × Option ℝ)
  t_stat : List (δ × Option ℝ)

/-- Statistics of one loop iteration of _rolling_metrics over the
current window contents: mean over the non-absent values, Bessel
sample standard deviation when at least two are present, and IR and
t-statistic when additionally std is non-zero (the Python truthiness
test if std). Floats are idealised as reals. -/
noncomputable def rolling_point (window_values : List (Option ℝ)) :
    Option ℝ × Option ℝ × Option ℝ × Option ℝ :=
  let valid := window_values.filterMap id
  if valid.isEmpty then (none, none, none, none)
  else
    let mean := valid.sum / (valid.length : ℝ)
    if valid.length > 1 then
      let var := (valid.map (fun x => (x - mean) ^ 2)).sum /
        ((valid.length - 1 : ℕ) : ℝ)
      let std := Real.sqrt var
      if std = 0 then (some mean, some std, none, none)
      else (some mean, some std, some (mean / std),
        some (mean / (std / Real.sqrt (valid.length : ℝ))))
    else (some mean, none, none, none)

/-- The loop of _rolling_metrics: append the value to the trailing
buffer, pop the oldest element once the buffer exceeds the window, and
emit one point per date. The Python indexes dates positionally while
iterating values, which is lockstep recursion on the two lists (they
have equal length in every call site and claim). -/
noncomputable def rolling_go (w : Nat) :
    List (Option ℝ) → List δ → List (Option ℝ) → RollingOut δ
  | _, [], _ => ⟨[], [], [], []⟩
  | _, _ :: _, [] => ⟨[], [], [], []⟩
  | buffer, day :: drest, v :: vrest =>
    let b1 := buffer ++ [v]
    let b2 := if b1.length > w then b1.drop 1 else b1
    let pt := rolling_point b2
    let rest := rolling_go w b2 drest vrest
    ⟨(day, pt.1) :: rest.ic_mean, (day, pt.2.1) :: rest.ic_std,
     (day, pt.2.2.1) :: rest.ic_ir, (day, pt.2.2.2) :: rest.t_stat⟩

/-- Embeds _rolling_metrics from src/app/main.py; the window is coerced
to at least 1 as in Python max(int(window), 1). -/
noncomputable def _rolling_metrics (dates : List δ) (values : List (Option ℝ))
    (window : Int) : RollingOut δ :=
  rolling_go (max window 1).toNat [] dates values

end Rolling

section ClaimC6

/-- With window 1 the buffer after each update is exactly the current
value, so the mean passes the input through and std, IR and t-stat are
none at every position. -/
theorem rolling_go_window_one {δ : Type} (dates : List δ)
    (values : List (Option ℝ)) (buffer : List (Option ℝ))
    (hb : buffer.length ≤ 1) (hlen : dates.length = values.length) :
    rolling_go 1 buffer dates values =
      ⟨dates.zip values, dates.map (fun d => (d, none)),
       dates.map (fun d => (d, none)), dates.map (fun d => (d, none))⟩ := by
  induction dates generalizing values buffer with
  | nil =>
    cases values with
    | nil => rfl
    | cons v vrest => exact absurd hlen (by simp)
  | cons day drest ih =>
    cases values with
    | nil => exact absurd hlen (by simp)
    | cons v vrest =>
      have hlen' : drest.length = vrest.length := by
        simpa using hlen
      have hb2 : (if (buffer ++ [v]).length > 1 then (buffer ++ [v]).drop 1
          else buffer ++ [v]) = [v] := by
        cases buffer with
        | nil => simp
        | cons b bt =>
          cases bt with
          | nil => simp
          | cons b2 bs => simp at hb
      have hpt : rolling_point [v] = (v, none, none, none) := by
        cases v with
        | none => simp [rolling_point]
        | some x => simp [rolling_point]
      simp only [rolling_go]
      rw [hb2, hpt, ih vrest [v] (by simp) hlen']
      simp

/-- Claim C6: for equal-length date and value series, rolling metrics
with window = 1 return four series of the input's length and date
order; the mean series passes each input value through and std, IR and
t-stat are none everywhere. -/
theorem C6_rolling_window_one {δ : Type} (dates : List δ)
    (values : List (Option ℝ)) (hlen : dates.length = values.length) :
    _rolling_metrics dates values 1 =
      ⟨dates.zip values, dates.map (fun d => (d, none)),
       dates.map (fun d => (d, none)), dates.map (fun d => (d, none))⟩ := by
  unfold _rolling_metrics
  exact rolling_go_window_one dates values [] (by simp) hlen

/-- Witness for C6_rolling_window_one on dates [0, 1] with values
[some 1, none]. -/
theorem C6_rolling_window_one_witness :
    _rolling_metrics [0, 1] [some (1 : ℝ), none] 1 =
      ⟨([0, 1] : List ℕ).zip [some (1 : ℝ), none],
       ([0, 1] : List ℕ).map (fun d => (d, none)),
       ([0, 1] : List ℕ).map (fun d => (d, none)),
       ([0, 1] : List ℕ).map (fun d => (d, none))⟩ :=
  C6_rolling_window_one [0, 1] [some 1, none] (by rfl)

end ClaimC6

section Deciles

/-- Bucket index of ordinal position idx among n sorted samples: Python
min(9, int(idx * 10 / n)); int() truncates the non-negative quotient,
which is natural-number division under exact arithmetic. -/
def bucket_of (n idx : Nat) : Nat := min 9 (idx * 10 / n)

/-- The sorted pairs of _decile_means: Python sorted(pairs, key=first),
a stable ascending sort by feature value, embedded as the (equally
stable) insertion sort. -/
def decile_ordered (pairs : List (ℚ × ℚ)) : List (ℚ × ℚ) :=
  List.insertionSort (fun p q => p.1 ≤ q.1) pairs

/-- The ten buckets of _decile_means: the loop appends the target of the
pair at sorted position idx to buckets[bucket_of n idx], so bucket b
holds, in position order, the targets of exactly the positions assigned
to b. -/
def decile_buckets (pairs : List (ℚ × ℚ)) : List (List ℚ) :=
  (List.range 10).map (fun b =>
    (((decile_ordered pairs).enum.filter
      (fun p => decide (bucket_of pairs.length p.1 = b))).map (fun p => p.2.2)))

/-- Embeds _decile_means from src/app/main.py: none for fewer than 10
pairs, otherwise the ten bucket means (none for an empty bucket). -/
def _decile_means (pairs : List (ℚ × ℚ)) : Option (List (Option ℚ)) :=
  if pairs.length < 10 then none
  else
    some ((decile_buckets pairs).map (fun bucket =>
      if bucket.isEmpty then none
      else some (bucket.sum / (bucket.length : ℚ))))

end Deciles

section DecileLemmas

/-- Counting enumerated positions satisfying an index predicate equals
counting over the index range. -/
theorem length_filter_enum_fst {β : Type} (l : List β) (q : Nat → Bool) :
    ∀ k, ((l.enumFrom k).filter (fun p => q p.1)).length =
      ((List.range' k l.length).filter q).length := by
  induction l with
  | nil => intro k; rfl
  | cons a t ih =>
    intro k
    simp only [List.enumFrom_cons, List.length_cons, List.range'_succ,
      List.filter_cons]
    by_cases hq : q k
    · simp only [hq]
      simp [ih (k + 1)]
    · simp only [hq]
      simp [ih (k + 1)]

/-- Every bucket index below 10 is hit by some position below n when
n is at least 10: position ceil(b * n / 10) lands in bucket b. -/
theorem bucket_of_surjective {n : Nat} (hn : 10 ≤ n) {b : Nat} (hb : b < 10) :
    ∃ i, i < n ∧ bucket_of n i = b := by
  refine ⟨(b * n + 9) / 10, ?_, ?_⟩
  · have hdm := Nat.div_add_mod (b * n + 9) 10
    have hmlt : (b * n + 9) % 10 < 10 := Nat.mod_lt _ (by norm_num)
    have hm9 : b * n ≤ 9 * n := by
      have : b ≤ 9 := by omega
      exact Nat.mul_le_mul_right n this
    omega
  · have hdm := Nat.div_add_mod (b * n + 9) 10
    have hmlt : (b * n + 9) % 10 < 10 := Nat.mod_lt _ (by norm_num)
    have hlo : b * n ≤ ((b * n + 9) / 10) * 10 := by omega
    have hhi : ((b * n + 9) / 10) * 10 < (b + 1) * n := by
      have : (b + 1) * n = b * n + n := by ring
      omega
    have hdiv : ((b * n + 9) / 10) * 10 / n = b :=
      Nat.div_eq_of_lt_le hlo hhi
    unfold bucket_of
    rw [hdiv]
    omega

end DecileLemmas

section DecileLemmas2

/-- Bucket b (b < 10) of the decile analyzer, read off positionally. -/
theorem decile_buckets_getD (pairs : List (ℚ × ℚ)) {b : Nat} (hb : b < 10) :
    (decile_buckets pairs).getD b [] =
      ((decile_ordered pairs).enum.filter
        (fun p => decide (bucket_of pairs.length p.1 = b))).map (fun p => p.2.2) := by
  unfold decile_buckets
  rw [List.getD_eq_getElem?_getD, List.getElem?_map]
  rw [List.getElem?_range hb]
  rfl

/-- The target of the sorted pair at position i belongs to the bucket
that the assignment formula names. -/
theorem mem_decile_bucket_of_get (pairs : List (ℚ × ℚ)) {i : Nat}
    (h : i < (decile_ordered pairs).length) :
    ((decile_ordered pairs).get ⟨i, h⟩).2 ∈
      (decile_buckets pairs).getD (bucket_of pairs.length i) [] := by
  have hb : bucket_of pairs.length i < 10 := by
    unfold bucket_of
    omega
  rw [decile_buckets_getD pairs hb]
  apply List.mem_map.mpr
  refine ⟨(i, (decile_ordered pairs).get ⟨i, h⟩), ?_, rfl⟩
  rw [List.mem_filter]
  constructor
  · rw [List.mem_enum_iff_get?]
    simp [List.get?_eq_get h]
  · simp

/-- Conversely, every member of a bucket is the target of a sorted pair
whose position is assigned to that bucket. -/
theorem mem_decile_bucket_elim (pairs : List (ℚ × ℚ)) {b : Nat} (hb : b < 10)
    {t : ℚ} (ht : t ∈ (decile_buckets pairs).getD b []) :
    ∃ i, ∃ h : i < (decile_ordered pairs).length,
      bucket_of pairs.length i = b ∧ ((decile_ordered pairs).get ⟨i, h⟩).2 = t := by
  rw [decile_buckets_getD pairs hb] at ht
  obtain ⟨p, hp, hpt⟩ := List.mem_map.mp ht
  rw [List.mem_filter] at hp
  obtain ⟨henum, hpred⟩ := hp
  obtain ⟨hlt, hget⟩ := List.get?_eq_some.mp (List.mem_enum_iff_get?.mp henum)
  refine ⟨p.1, hlt, by simpa using hpred, ?_⟩
  rw [hget]
  exact hpt

/-- With at least 10 samples no bucket is empty. -/
theorem decile_bucket_ne_nil (pairs : List (ℚ × ℚ)) (hn : 10 ≤ pairs.length)
    {b : Nat} (hb : b < 10) : (decile_buckets pairs).getD b [] ≠ [] := by
  obtain ⟨i, hi, hbi⟩ := bucket_of_surjective hn hb
  have h' : i < (decile_ordered pairs).length := by
    unfold decile_ordered
    rw [List.length_insertionSort]
    exact hi
  have hmem := mem_decile_bucket_of_get pairs h'
  rw [hbi] at hmem
  exact List.ne_nil_of_mem hmem

/-- With exactly 100 samples every bucket holds exactly 10 targets. -/
theorem decile_bucket_length_100 (pairs : List (ℚ × ℚ))
    (hn : pairs.length = 100) {b : Nat} (hb : b < 10) :
    ((decile_buckets pairs).getD b []).length = 10 := by
  rw [decile_buckets_getD pairs hb, List.length_map]
  have hlen : (decile_ordered pairs).length = 100 := by
    unfold decile_ordered
    rw [List.length_insertionSort, hn]
  have hcnt := length_filter_enum_fst (decile_ordered pairs)
    (fun i => decide (bucket_of pairs.length i = b)) 0
  have henum : (decile_ordered pairs).enum =
      (decile_ordered pairs).enumFrom 0 := rfl
  rw [henum, hcnt, hlen, hn]
  have hall : ∀ b' < 10,
      ((List.range' 0 100).filter (fun i => decide (bucket_of 100 i = b'))).length
        = 10 := by decide
  exact hall b hb

/-- A position in bucket 0 precedes any position in bucket 9. -/
theorem bucket_zero_lt_bucket_nine {n i0 i9 : Nat} (hn : 10 ≤ n)
    (h0 : bucket_of n i0 = 0) (h9 : bucket_of n i9 = 9) : i0 < i9 := by
  unfold bucket_of at h0 h9
  have h0' : i0 * 10 / n = 0 := by omega
  have h9' : 9 ≤ i9 * 10 / n := by omega
  have ha : i0 * 10 < n := by
    by_contra hcon
    have := Nat.div_le_div_right (c := n) (Nat.le_of_not_lt hcon)
    rw [Nat.div_self (by omega : 0 < n)] at this
    omega
  have hb9 : 9 * n ≤ i9 * 10 := (Nat.le_div_iff_mul_le (by omega)).mp h9'
  omega

/-- An average is bounded above by any upper bound of the values. -/
theorem sum_div_length_le {l : List ℚ} {c : ℚ} (hne : l ≠ [])
    (h : ∀ x ∈ l, x ≤ c) : l.sum / (l.length : ℚ) ≤ c := by
  have hpos : 0 < (l.length : ℚ) := by
    have := List.length_pos.mpr hne
    exact_mod_cast this
  rw [div_le_iff hpos]
  have := List.sum_le_card_nsmul l c h
  rwa [nsmul_eq_mul, mul_comm] at this

/-- An average is bounded below by any lower bound of the values. -/
theorem le_sum_div_length {l : List ℚ} {c : ℚ} (hne : l ≠ [])
    (h : ∀ x ∈ l, c ≤ x) : c ≤ l.sum / (l.length : ℚ) := by
  have hpos : 0 < (l.length : ℚ) := by
    have := List.length_pos.mpr hne
    exact_mod_cast this
  rw [le_div_iff hpos]
  have := List.card_nsmul_le_sum l c h
  rwa [nsmul_eq_mul, mul_comm] at this

end DecileLemmas2

section DecileLemmas3

/-- Under a monotone feature-target relation, every target in bucket 0
is at most every target in bucket 9. -/
theorem decile_bucket0_le_bucket9 (pairs : List (ℚ × ℚ)) (hn : 10 ≤ pairs.length)
    (hmono : ∀ p ∈ pairs, ∀ q ∈ pairs, p.1 ≤ q.1 → p.2 ≤ q.2) :
    ∀ t0 ∈ (decile_buckets pairs).getD 0 [],
      ∀ t9 ∈ (decile_buckets pairs).getD 9 [], t0 ≤ t9 := by
  intro t0 ht0 t9 ht9
  obtain ⟨i0, h0lt, hb0, hv0⟩ := mem_decile_bucket_elim pairs (by norm_num) ht0
  obtain ⟨i9, h9lt, hb9, hv9⟩ := mem_decile_bucket_elim pairs (by norm_num) ht9
  have hik : i0 < i9 := bucket_zero_lt_bucket_nine hn hb0 hb9
  haveI ht : IsTrans (ℚ × ℚ) (fun p q => p.1 ≤ q.1) :=
    ⟨fun a b c hab hbc => le_trans hab hbc⟩
  haveI htot : IsTotal (ℚ × ℚ) (fun p q => p.1 ≤ q.1) :=
    ⟨fun a b => le_total a.1 b.1⟩
  have hsorted : (decile_ordered pairs).Pairwise (fun p q => p.1 ≤ q.1) :=
    List.sorted_insertionSort _ pairs
  have hfeat : ((decile_ordered pairs).get ⟨i0, h0lt⟩).1 ≤
      ((decile_ordered pairs).get ⟨i9, h9lt⟩).1 :=
    List.pairwise_iff_get.mp hsorted ⟨i0, h0lt⟩ ⟨i9, h9lt⟩ hik
  have hperm : List.Perm (decile_ordered pairs) pairs :=
    List.perm_insertionSort _ pairs
  have hm0 : (decile_ordered pairs).get ⟨i0, h0lt⟩ ∈ pairs :=
    hperm.subset (List.get_mem _ _ h0lt)
  have hm9 : (decile_ordered pairs).get ⟨i9, h9lt⟩ ∈ pairs :=
    hperm.subset (List.get_mem _ _ h9lt)
  have hle := hmono _ hm0 _ hm9 hfeat
  rw [hv0, hv9] at hle
  exact hle

end DecileLemmas3

section ClaimC4

/-- Claim C4: for a day's sample of n >= 10 pairs, sorted ascending by
feature, position i is assigned to bucket min(9, floor(i*10/n)); the
analyzer yields exactly 10 buckets, each non-empty (so 10 non-none
means); for n = 100 every bucket holds exactly 10 pairs; and when the
target is monotonically increasing in the feature, the aggregated
bucket-9 mean is at least the bucket-0 mean. -/
theorem C4_decile_bucketing (pairs : List (ℚ × ℚ)) :
    (10 ≤ pairs.length →
      ∃ means, _decile_means pairs = some means ∧ means.length = 10 ∧
        ∀ m ∈ means, m ≠ none) ∧
    (∀ i, ∀ (h : i < (decile_ordered pairs).length),
      ((decile_ordered pairs).get ⟨i, h⟩).2 ∈
        (decile_buckets pairs).getD (bucket_of pairs.length i) []) ∧
    (pairs.length = 100 → ∀ b, b < 10 →
      ((decile_buckets pairs).getD b []).length = 10) ∧
    (10 ≤ pairs.length →
      (∀ p ∈ pairs, ∀ q ∈ pairs, p.1 ≤ q.1 → p.2 ≤ q.2) →
      ∃ means m0 m9, _decile_means pairs = some means ∧
        means.get? 0 = some (some m0) ∧ means.get? 9 = some (some m9) ∧
        m0 ≤ m9) := by
  have hbuckets_len : (decile_buckets pairs).length = 10 := by
    unfold decile_buckets
    simp
  have hmeans : ∀ hn : 10 ≤ pairs.length, _decile_means pairs =
      some ((decile_buckets pairs).map (fun bucket =>
        if bucket.isEmpty then none
        else some (bucket.sum / (bucket.length : ℚ)))) := by
    intro hn
    unfold _decile_means
    rw [if_neg (by omega)]
  refine ⟨?_, ?_, ?_, ?_⟩
  · intro hn
    refine ⟨_, hmeans hn, by rw [List.length_map, hbuckets_len], ?_⟩
    intro m hm
    obtain ⟨bucket, hbmem, hbeq⟩ := List.mem_map.mp hm
    obtain ⟨b, hbr, hbg⟩ := List.mem_map.mp (by
      unfold decile_buckets at hbmem
      exact hbmem)
    have hb10 : b < 10 := List.mem_range.mp hbr
    have hge : (decile_buckets pairs).getD b [] = bucket := by
      rw [decile_buckets_getD pairs hb10, ← hbg]
    have hbne : bucket ≠ [] := by
      rw [← hge]
      exact decile_bucket_ne_nil pairs hn hb10
    rw [← hbeq]
    rw [if_neg (by simpa using hbne)]
    simp
  · intro i h
    exact mem_decile_bucket_of_get pairs h
  · intro hn b hb
    exact decile_bucket_length_100 pairs hn hb
  · intro hn hmono
    have hb0ne := decile_bucket_ne_nil pairs hn (by norm_num : (0 : ℕ) < 10)
    have hb9ne := decile_bucket_ne_nil pairs hn (by norm_num : (9 : ℕ) < 10)
    have hptw := decile_bucket0_le_bucket9 pairs hn hmono
    set b0 := (decile_buckets pairs).getD 0 [] with hb0
    set b9 := (decile_buckets pairs).getD 9 [] with hb9
    have hm0le : ∀ t9 ∈ b9, b0.sum / (b0.length : ℚ) ≤ t9 := by
      intro t9 ht9
      exact sum_div_length_le hb0ne (fun t0 ht0 => hptw t0 ht0 t9 ht9)
    have hmean : b0.sum / (b0.length : ℚ) ≤ b9.sum / (b9.length : ℚ) :=
      le_sum_div_length hb9ne hm0le
    refine ⟨_, b0.sum / (b0.length : ℚ), b9.sum / (b9.length : ℚ),
      hmeans hn, ?_, ?_, hmean⟩
    · have h0lt : 0 < (decile_buckets pairs).length := by omega
      have : (decile_buckets pairs).get? 0 = some b0 := by
        rw [hb0, List.getD_eq_getElem?_getD, List.get?_eq_getElem?,
          List.getElem?_eq_getElem h0lt]
        rfl
      rw [List.get?_map, this, Option.map_some']
      rw [if_neg (by simpa using hb0ne)]
    · have h9lt : 9 < (decile_buckets pairs).length := by omega
      have : (decile_buckets pairs).get? 9 = some b9 := by
        rw [hb9, List.getD_eq_getElem?_getD, List.get?_eq_getElem?,
          List.getElem?_eq_getElem h9lt]
        rfl
      rw [List.get?_map, this, Option.map_some']
      rw [if_neg (by simpa using hb9ne)]

end ClaimC4

/-- Witness for C4_decile_bucketing on the 100 pairs (i, i): position 0
lands in its assigned bucket, bucket 5 holds exactly 10 targets, the
means are 10 with none absent, and the bucket-9 mean dominates the
bucket-0 mean for this monotone sample. -/
theorem C4_decile_bucketing_witness :
    (∃ means,
      _decile_means ((List.range 100).map (fun (i : ℕ) => ((i : ℚ), (i : ℚ)))) =
        some means ∧ means.length = 10 ∧ ∀ m ∈ means, m ≠ none) ∧
    (((decile_ordered ((List.range 100).map (fun (i : ℕ) => ((i : ℚ), (i : ℚ))))).get
        ⟨0, by simp [decile_ordered, List.length_insertionSort]⟩).2 ∈
      (decile_buckets ((List.range 100).map (fun (i : ℕ) => ((i : ℚ), (i : ℚ))))).getD
        (bucket_of ((List.range 100).map (fun (i : ℕ) => ((i : ℚ), (i : ℚ)))).length 0)
        []) ∧
    ((decile_buckets ((List.range 100).map
        (fun (i : ℕ) => ((i : ℚ), (i : ℚ))))).getD 5 []).length = 10 ∧
    (∃ means m0 m9,
      _decile_means ((List.range 100).map (fun (i : ℕ) => ((i : ℚ), (i : ℚ)))) =
        some means ∧ means.get? 0 = some (some m0) ∧
        means.get? 9 = some (some m9) ∧ m0 ≤ m9) :=
  ⟨(C4_decile_bucketing ((List.range 100).map (fun (i : ℕ) => ((i : ℚ), (i : ℚ))))).1
     (by rw [List.length_map, List.length_range]; norm_num),
   (C4_decile_bucketing ((List.range 100).map (fun (i : ℕ) => ((i : ℚ), (i : ℚ))))).2.1 0 (by simp [decile_ordered, List.length_insertionSort]),
   (C4_decile_bucketing ((List.range 100).map (fun (i : ℕ) => ((i : ℚ), (i : ℚ))))).2.2.1
     (by rw [List.length_map, List.length_range]) 5 (by norm_num),
   (C4_decile_bucketing ((List.range 100).map (fun (i : ℕ) => ((i : ℚ), (i : ℚ))))).2.2.2
     (by rw [List.length_map, List.length_range]; norm_num) (by
     intro p hp q hq hle
     obtain ⟨a, _, rfl⟩ := List.mem_map.mp hp
     obtain ⟨b, _, rfl⟩ := List.mem_map.mp hq
     exact hle)⟩

section Rebase

variable {δ : Type} [LinearOrder δ]

/-- Embeds _first_available_date from src/app/main.py: scan the calendar
in order and return the first day whose value is present (dict get is
modelled by the Option-valued function). -/
def _first_available_date (values : δ → Option ℚ) : List δ → Option δ
  | [] => none
  | day :: rest =>
    match values day with
    | none => _first_available_date values rest
    | some _ => some day

/-- Modelled from the spec: the IndexRebaser output computation of
section 4.7 is not under src (the index_series endpoint returns raw
reference closes; only the base-date helper _first_available_date is in
the source). Per the spec, the output value at date D is base_close *
(reference[D] / reference[base_date]), or none if either side is
unavailable. -/
def rebase_value (base_close : ℚ) (reference : δ → Option ℚ)
    (base_date day : δ) : Option ℚ :=
  match reference day, reference base_date with
  | some rD, some rB => some (base_close * (rD / rB))
  | _, _ => none

end Rebase

section ClaimC3

/-- Claim C3: the rebased value at D is base_close * (reference[D] /
reference[base_date]) and none when either side is unavailable; and for
instrument closes {d2: 10} over three consecutive trading days
d1 < d2 < d3, the base date resolves to d2, where the rebased value is
exactly the base close (for any reference present and non-zero at d2). -/
theorem C3_rebase_base_date {δ : Type} [LinearOrder δ] :
    (∀ (bc : ℚ) (ref : δ → Option ℚ) (bd D : δ) (rD rB : ℚ),
      ref D = some rD → ref bd = some rB →
      rebase_value bc ref bd D = some (bc * (rD / rB))) ∧
    (∀ (bc : ℚ) (ref : δ → Option ℚ) (bd D : δ),
      ref D = none ∨ ref bd = none → rebase_value bc ref bd D = none) ∧
    (∀ d1 d2 d3 : δ, d1 < d2 → d2 < d3 →
      _first_available_date (fun d => if d = d2 then some 10 else none)
        [d1, d2, d3] = some d2) ∧
    (∀ (ref : δ → Option ℚ) (d2 : δ) (r : ℚ), ref d2 = some r → r ≠ 0 →
      rebase_value 10 ref d2 d2 = some 10) := by
  refine ⟨?_, ?_, ?_, ?_⟩
  · intro bc ref bd D rD rB hD hbd
    unfold rebase_value
    rw [hD, hbd]
  · intro bc ref bd D h
    rcases h with h | h
    · unfold rebase_value
      rw [h]
    · unfold rebase_value
      cases href : ref D with
      | none => rfl
      | some rD => rw [h]
  · intro d1 d2 d3 h12 h23
    unfold _first_available_date
    rw [if_neg (ne_of_lt h12)]
    unfold _first_available_date
    rw [if_pos rfl]
  · intro ref d2 r href hr
    unfold rebase_value
    rw [href]
    simp [div_self hr]

/-- Witness for C3_rebase_base_date over natural-number dates. -/
theorem C3_rebase_base_date_witness :
    rebase_value 2 (fun _ : ℕ => some 4) 0 1 = some (2 * (4 / 4)) ∧
    rebase_value 2 (fun _ : ℕ => none) 0 1 = none ∧
    _first_available_date (fun d : ℕ => if d = 1 then some 10 else none)
      [0, 1, 2] = some 1 ∧
    rebase_value 10 (fun _ : ℕ => some 5) 1 1 = some 10 :=
  ⟨C3_rebase_base_date.1 2 (fun _ => some 4) 0 1 4 4 rfl rfl,
   C3_rebase_base_date.2.1 2 (fun _ => none) 0 1 (Or.inl rfl),
   C3_rebase_base_date.2.2.1 0 1 2 (by decide) (by decide),
   C3_rebase_base_date.2.2.2 (fun _ => some 5) 1 5 rfl (by norm_num)⟩

end ClaimC3

section Correlation

/-- Embeds _pearson_corr from src/app/main.py over the reals (floats
idealised as exact reals, math.sqrt as Real.sqrt); the three
accumulated sums run over the zipped value pairs exactly as the Python
loop does. -/
noncomputable def _pearson_corr (values_x values_y : List ℝ) : Option ℝ :=
  if values_x.length < 2 ∨ values_x.length ≠ values_y.length then none
  else
    let mean_x := values_x.sum / (values_x.length : ℝ)
    let mean_y := values_y.sum / (values_x.length : ℝ)
    let sum_xy := ((values_x.zip values_y).map
      (fun p => (p.1 - mean_x) * (p.2 - mean_y))).sum
    let sum_xx := ((values_x.zip values_y).map
      (fun p => (p.1 - mean_x) * (p.1 - mean_x))).sum
    let sum_yy := ((values_x.zip values_y).map
      (fun p => (p.2 - mean_y) * (p.2 - mean_y))).sum
    if sum_xx ≤ 0 ∨ sum_yy ≤ 0 then none
    else some (sum_xy / Real.sqrt (sum_xx * sum_yy))

/-- The grouping loop of _rank_values over the sorted (original index,
value) pairs: a run is the maximal block of consecutive equal values
starting at loop position pos (Python start); every member of the run
receives the average rank (start + end)/2 + 1, and the loop resumes
after the run. -/
def rankRuns {α : Type} [LinearOrder α] : List (Nat × α) → Nat → List (Nat × ℚ)
  | [], _ => []
  | (j, v) :: rest, pos =>
    let run := rest.takeWhile (fun p => decide (p.2 = v))
    let avg : ℚ := (((pos + (pos + run.length) : ℕ) : ℚ)) / 2 + 1
    ((j, v) :: run).map (fun p => (p.1, avg)) ++
      rankRuns (rest.dropWhile (fun p => decide (p.2 = v))) (pos + run.length + 1)
termination_by l _ => l.length
decreasing_by
  simp only [List.length_cons]
  have := (List.dropWhile_sublist (l := rest) (fun p => decide (p.2 = v))).length_le
  omega

/-- Embeds _rank_values from src/app/main.py: sort the enumerated values
by value (Python stable sort, embedded as the equally stable insertion
sort), assign average ranks run by run, then write each rank back to
its original position; ranks are initialised to 0 and every position is
written exactly once, which the association-list lookup with default 0
models. -/
def _rank_values {α : Type} [LinearOrder α] (values : List α) : List ℚ :=
  let indexed := List.insertionSort (fun p q => p.2 ≤ q.2) values.enum
  let assoc := rankRuns indexed 0
  (List.range values.length).map (fun j => (assoc.lookup j).getD 0)

/-- Embeds _spearman_corr from src/app/main.py: Pearson correlation of
the average ranks (rank rationals cast into the reals of the Pearson
computation). -/
noncomputable def _spearman_corr {α : Type} [LinearOrder α]
    (values_x values_y : List α) : Option ℝ :=
  if values_x.length < 2 then none
  else
    _pearson_corr ((_rank_values values_x).map (fun (q : ℚ) => (q : ℝ)))
      ((_rank_values values_y).map (fun (q : ℚ) => (q : ℝ)))

end Correlation

section RankLemmas

variable {α : Type} [LinearOrder α]

/-- Unfolding equation of rankRuns on a non-empty list. -/
theorem rankRuns_cons (j : Nat) (v : α) (rest : List (Nat × α)) (pos : Nat) :
    rankRuns ((j, v) :: rest) pos =
      ((j, v) :: rest.takeWhile (fun p => decide (p.2 = v))).map
        (fun p => (p.1,
          (((pos + (pos + (rest.takeWhile (fun p => decide (p.2 = v))).length) : ℕ) : ℚ)) / 2 + 1)) ++
      rankRuns (rest.dropWhile (fun p => decide (p.2 = v)))
        (pos + (rest.takeWhile (fun p => decide (p.2 = v))).length + 1) := by
  rw [rankRuns]

/-- Sum of a constant-valued map. -/
theorem sum_map_const_q {β : Type} (l : List β) (c : ℚ) :
    (l.map (fun _ => c)).sum = (l.length : ℚ) * c := by
  induction l with
  | nil => simp
  | cons a t ih =>
    simp only [List.map_cons, List.sum_cons, ih, List.length_cons]
    push_cast
    ring

/-- rankRuns assigns ranks to exactly the original keys, in sorted
order. -/
theorem rankRuns_map_fst : ∀ (l : List (Nat × α)) (pos : Nat),
    (rankRuns l pos).map Prod.fst = l.map Prod.fst
  | [], pos => by simp [rankRuns]
  | (j, v) :: rest, pos => by
    rw [rankRuns_cons, List.map_append, List.map_map]
    rw [rankRuns_map_fst (rest.dropWhile (fun p => decide (p.2 = v)))
      (pos + (rest.takeWhile (fun p => decide (p.2 = v))).length + 1)]
    have hcomp : (Prod.fst ∘ fun p : Nat × α =>
        (p.1, (((pos + (pos + (rest.takeWhile
          (fun p => decide (p.2 = v))).length) : ℕ) : ℚ)) / 2 + 1)) =
        (Prod.fst : Nat × α → Nat) := by
      funext p
      rfl
    rw [hcomp, List.map_cons, List.map_cons, List.cons_append,
      ← List.map_append, List.takeWhile_append_dropWhile]
termination_by l _ => l.length
decreasing_by
  simp only [List.length_cons]
  have := (List.dropWhile_sublist (l := rest) (fun p => decide (p.2 = v))).length_le
  omega

/-- The ranks assigned by rankRuns over m entries starting at position
pos sum to m * pos + m * (m + 1) / 2 (the sum pos+1, ..., pos+m). -/
theorem rankRuns_sum : ∀ (l : List (Nat × α)) (pos : Nat),
    ((rankRuns l pos).map Prod.snd).sum =
      (l.length : ℚ) * pos + (l.length : ℚ) * ((l.length : ℚ) + 1) / 2
  | [], pos => by simp [rankRuns]
  | (j, v) :: rest, pos => by
    rw [rankRuns_cons, List.map_append, List.sum_append, List.map_map]
    rw [rankRuns_sum (rest.dropWhile (fun p => decide (p.2 = v)))
      (pos + (rest.takeWhile (fun p => decide (p.2 = v))).length + 1)]
    have hcomp : (Prod.snd ∘ fun p : Nat × α =>
        (p.1, (((pos + (pos + (rest.takeWhile
          (fun p => decide (p.2 = v))).length) : ℕ) : ℚ)) / 2 + 1)) =
        (fun _ : Nat × α => (((pos + (pos + (rest.takeWhile
          (fun p => decide (p.2 = v))).length) : ℕ) : ℚ)) / 2 + 1) := by
      funext p
      rfl
    rw [hcomp, sum_map_const_q]
    have hsplit : rest.length =
        (rest.takeWhile (fun p => decide (p.2 = v))).length +
        (rest.dropWhile (fun p => decide (p.2 = v))).length := by
      conv_lhs => rw [← List.takeWhile_append_dropWhile
        (p := fun p => decide (p.2 = v)) (l := rest)]
      rw [List.length_append]
    set k := (rest.takeWhile (fun p => decide (p.2 = v))).length with hk
    set m2 := (rest.dropWhile (fun p => decide (p.2 = v))).length with hm2
    simp only [List.length_cons, hsplit]
    push_cast
    ring
  termination_by l _ => l.length
  decreasing_by
    simp only [List.length_cons]
    have := (List.dropWhile_sublist (l := rest) (fun p => decide (p.2 = v))).length_le
    omega

/-- Every rank assigned by rankRuns over l starting at pos lies in
[pos + 1, pos + length l]. -/
theorem rankRuns_bounds : ∀ (l : List (Nat × α)) (pos : Nat),
    ∀ x ∈ rankRuns l pos, (pos : ℚ) + 1 ≤ x.2 ∧ x.2 ≤ (pos : ℚ) + l.length
  | [], pos => by simp [rankRuns]
  | (j, v) :: rest, pos => by
    intro x hx
    rw [rankRuns_cons] at hx
    have hsplit : rest.length =
        (rest.takeWhile (fun p => decide (p.2 = v))).length +
        (rest.dropWhile (fun p => decide (p.2 = v))).length := by
      conv_lhs => rw [← List.takeWhile_append_dropWhile
        (p := fun p => decide (p.2 = v)) (l := rest)]
      rw [List.length_append]
    set k := (rest.takeWhile (fun p => decide (p.2 = v))).length with hk
    set m2 := (rest.dropWhile (fun p => decide (p.2 = v))).length with hm2
    rcases List.mem_append.mp hx with hx | hx
    · obtain ⟨p, hp, hpe⟩ := List.mem_map.mp hx
      have hx2 : x.2 = (((pos + (pos + k) : ℕ) : ℚ)) / 2 + 1 := by
        rw [← hpe]
      rw [hx2]
      constructor
      · push_cast
        linarith [Nat.cast_nonneg (α := ℚ) k]
      · simp only [List.length_cons, hsplit]
        push_cast
        linarith [Nat.cast_nonneg (α := ℚ) m2, Nat.cast_nonneg (α := ℚ) k]
    · have := rankRuns_bounds (rest.dropWhile (fun p => decide (p.2 = v)))
        (pos + k + 1) x hx
      constructor
      · have h1 := this.1
        push_cast at h1 ⊢
        linarith [Nat.cast_nonneg (α := ℚ) k]
      · have h2 := this.2
        simp only [List.length_cons, hsplit]
        push_cast at h2 ⊢
        linarith
  termination_by l _ => l.length
  decreasing_by
    simp only [List.length_cons]
    have := (List.dropWhile_sublist (l := rest) (fun p => decide (p.2 = v))).length_le
    omega

end RankLemmas

section WriteBack

/-- With distinct keys, looking up the key of a member finds exactly
that member's value. -/
theorem lookup_eq_of_mem {β : Type} :
    ∀ {assoc : List (Nat × β)}, (assoc.map Prod.fst).Nodup →
      ∀ e ∈ assoc, assoc.lookup e.1 = some e.2 := by
  intro assoc
  induction assoc with
  | nil =>
    intro _ e he
    exact absurd he (List.not_mem_nil e)
  | cons a t ih =>
    obtain ⟨k, b⟩ := a
    intro hnd e he
    rw [List.map_cons, List.nodup_cons] at hnd
    rcases List.mem_cons.mp he with rfl | he'
    · simp [List.lookup]
    · have hne : k ≠ e.1 := by
        intro hcon
        have hmem : e.1 ∈ t.map Prod.fst := List.mem_map_of_mem Prod.fst he'
        rw [← hcon] at hmem
        exact hnd.1 hmem
      have hbeq : (e.1 == k) = false := by
        simpa using Ne.symm hne
      simp only [List.lookup, hbeq]
      exact ih hnd.2 e he'

/-- Writing the ranks back by key produces a permutation of the
assigned rank values when the keys are exactly 0..n-1. -/
theorem writeback_perm {β : Type} (assoc : List (Nat × β)) (n : Nat) (d : β)
    (hnd : (assoc.map Prod.fst).Nodup)
    (hperm : List.Perm (assoc.map Prod.fst) (List.range n)) :
    List.Perm ((List.range n).map (fun j => (assoc.lookup j).getD d))
      (assoc.map Prod.snd) := by
  have h1 : List.Perm ((List.range n).map (fun j => (assoc.lookup j).getD d))
      ((assoc.map Prod.fst).map (fun j => (assoc.lookup j).getD d)) :=
    hperm.symm.map _
  have h2 : (assoc.map Prod.fst).map (fun j => (assoc.lookup j).getD d) =
      assoc.map Prod.snd := by
    rw [List.map_map]
    refine List.map_congr_left ?_
    intro e he
    simp only [Function.comp]
    rw [lookup_eq_of_mem hnd e he]
    rfl
  rw [h2] at h1
  exact h1

end WriteBack

section ClaimC10

/-- Claim C10: for a non-empty list of n values, the average-rank vector
has length n, every rank lies in [1, n], and the ranks sum to
n(n+1)/2, ties included. -/
theorem C10_rank_properties {α : Type} [LinearOrder α] (values : List α)
    (hne : values ≠ []) :
    (_rank_values values).length = values.length ∧
    (∀ r ∈ _rank_values values, 1 ≤ r ∧ r ≤ (values.length : ℚ)) ∧
    (_rank_values values).sum =
      (values.length : ℚ) * ((values.length : ℚ) + 1) / 2 := by
  set n := values.length with hn
  set indexed := List.insertionSort (fun p q : Nat × α => p.2 ≤ q.2)
    values.enum with hidx
  set assoc := rankRuns indexed 0 with hassoc
  have hperm_idx : List.Perm indexed values.enum := List.perm_insertionSort _ _
  have hkeys : List.Perm (assoc.map Prod.fst) (List.range n) := by
    rw [hassoc, rankRuns_map_fst]
    have hm := hperm_idx.map Prod.fst
    rw [List.enum_map_fst] at hm
    exact hm
  have hnd : (assoc.map Prod.fst).Nodup :=
    hkeys.nodup_iff.mpr (List.nodup_range n)
  have hrv : _rank_values values =
      (List.range n).map (fun j => (assoc.lookup j).getD 0) := rfl
  have hp : List.Perm (_rank_values values) (assoc.map Prod.snd) := by
    rw [hrv]
    exact writeback_perm assoc n 0 hnd hkeys
  have hlen_idx : indexed.length = n := by
    rw [hidx, List.length_insertionSort, List.enum_length]
  refine ⟨?_, ?_, ?_⟩
  · rw [hrv, List.length_map, List.length_range]
  · intro r hr
    have hr2 : r ∈ assoc.map Prod.snd := hp.subset hr
    obtain ⟨e, he, hee⟩ := List.mem_map.mp hr2
    have hb := rankRuns_bounds indexed 0 e he
    rw [hee] at hb
    rw [hlen_idx] at hb
    constructor
    · have := hb.1
      push_cast at this ⊢
      linarith
    · have := hb.2
      push_cast at this ⊢
      linarith
  · rw [hp.sum_eq, hassoc, rankRuns_sum, hlen_idx]
    push_cast
    ring

/-- Witness for C10_rank_properties on the tied sample [2, 1, 1]. -/
theorem C10_rank_properties_witness :
    (_rank_values ([2, 1, 1] : List ℚ)).length = ([2, 1, 1] : List ℚ).length ∧
    (∀ r ∈ _rank_values ([2, 1, 1] : List ℚ),
      1 ≤ r ∧ r ≤ ((([2, 1, 1] : List ℚ)).length : ℚ)) ∧
    (_rank_values ([2, 1, 1] : List ℚ)).sum =
      ((([2, 1, 1] : List ℚ)).length : ℚ) *
        (((([2, 1, 1] : List ℚ)).length : ℚ) + 1) / 2 :=
  C10_rank_properties [2, 1, 1] (by decide)

end ClaimC10

section RankNodup

variable {α : Type} [LinearOrder α]

/-- With pairwise-distinct values every run is a singleton, so rankRuns
assigns consecutive integer ranks. -/
theorem rankRuns_cons_nodup {j : Nat} {v : α} {rest : List (Nat × α)}
    (hnd : (((j, v) :: rest).map Prod.snd).Nodup) (pos : Nat) :
    rankRuns ((j, v) :: rest) pos =
      (j, (pos : ℚ) + 1) :: rankRuns rest (pos + 1) := by
  have hv : v ∉ rest.map Prod.snd := by
    rw [List.map_cons, List.nodup_cons] at hnd
    exact hnd.1
  have hhead : ∀ r ∈ rest, ¬ ((fun p : Nat × α => decide (p.2 = v)) r = true) := by
    intro r hr hcon
    simp only [decide_eq_true_eq] at hcon
    have hmem : r.2 ∈ rest.map Prod.snd := List.mem_map_of_mem Prod.snd hr
    rw [hcon] at hmem
    exact hv hmem
  have htake : rest.takeWhile (fun p => decide (p.2 = v)) = [] := by
    cases rest with
    | nil => rfl
    | cons r rt =>
      have hfalse : (decide (r.2 = v)) = false := by
        simpa using hhead r (List.mem_cons_self r rt)
      simp [List.takeWhile_cons, hfalse]
  have hdrop : rest.dropWhile (fun p => decide (p.2 = v)) = rest := by
    cases rest with
    | nil => rfl
    | cons r rt =>
      have hfalse : (decide (r.2 = v)) = false := by
        simpa using hhead r (List.mem_cons_self r rt)
      simp [List.dropWhile_cons, hfalse]
  rw [rankRuns_cons, htake, hdrop]
  simp only [List.length_nil, List.map_cons, List.map_nil, Nat.add_zero,
    List.cons_append, List.nil_append]
  congr 2
  push_cast
  ring

/-- With pairwise-distinct values, the entry at sorted position k
receives rank pos + k + 1. -/
theorem rankRuns_entry : ∀ (l : List (Nat × α)) (pos : Nat),
    (l.map Prod.snd).Nodup → ∀ k, ∀ hk : k < l.length,
      ((l.get ⟨k, hk⟩).1, ((pos + k : ℕ) : ℚ) + 1) ∈ rankRuns l pos := by
  intro l
  induction l with
  | nil =>
    intro pos _ k hk
    simp at hk
  | cons a rest ih =>
    obtain ⟨j, v⟩ := a
    intro pos hnd k hk
    rw [rankRuns_cons_nodup hnd]
    have hnd' : (rest.map Prod.snd).Nodup := by
      rw [List.map_cons, List.nodup_cons] at hnd
      exact hnd.2
    cases k with
    | zero =>
      apply List.mem_cons.mpr
      left
      simp
    | succ k' =>
      apply List.mem_cons_of_mem
      have hk' : k' < rest.length := by simpa using hk
      have hmem := ih (pos + 1) hnd' k' hk'
      have harith : (((pos + 1) + k' : ℕ) : ℚ) + 1 = ((pos + (k' + 1) : ℕ) : ℚ) + 1 := by
        push_cast
        ring
      rw [harith] at hmem
      simpa using hmem

/-- In a list sorted by value with pairwise-distinct values, the number
of entries whose value is below the value at position k is exactly k. -/
theorem sorted_position_count : ∀ (l : List (Nat × α)),
    l.Pairwise (fun p q => p.2 ≤ q.2) → (l.map Prod.snd).Nodup →
    ∀ k, ∀ hk : k < l.length,
      l.countP (fun p => decide (p.2 < (l.get ⟨k, hk⟩).2)) = k := by
  intro l
  induction l with
  | nil =>
    intro _ _ k hk
    simp at hk
  | cons a rest ih =>
    intro hsort hnd k hk
    have hpair := List.pairwise_cons.mp hsort
    have hndc : a.2 ∉ rest.map Prod.snd := by
      rw [List.map_cons, List.nodup_cons] at hnd
      exact hnd.1
    have hnd' : (rest.map Prod.snd).Nodup := by
      rw [List.map_cons, List.nodup_cons] at hnd
      exact hnd.2
    rw [List.countP_cons]
    cases k with
    | zero =>
      have hget : (a :: rest).get ⟨0, hk⟩ = a := rfl
      rw [hget]
      have hhead : (decide (a.2 < a.2)) = false := by simp
      have hrest : rest.countP (fun p => decide (p.2 < a.2)) = 0 := by
        rw [List.countP_eq_zero]
        intro p hp
        simp only [decide_eq_true_eq]
        exact not_lt.mpr (hpair.1 p hp)
      rw [hhead, hrest]
      simp
    | succ k' =>
      have hk' : k' < rest.length := by simpa using hk
      have hget : (a :: rest).get ⟨k' + 1, hk⟩ = rest.get ⟨k', hk'⟩ := rfl
      rw [hget]
      have he_mem : rest.get ⟨k', hk'⟩ ∈ rest := List.get_mem _ _ _
      have hlt : a.2 < (rest.get ⟨k', hk'⟩).2 := by
        have hle := hpair.1 _ he_mem
        have hne : a.2 ≠ (rest.get ⟨k', hk'⟩).2 := by
          intro hcon
          have : (rest.get ⟨k', hk'⟩).2 ∈ rest.map Prod.snd :=
            List.mem_map_of_mem Prod.snd he_mem
          rw [← hcon] at this
          exact hndc this
        exact lt_of_le_of_ne hle hne
      have hhead : (decide (a.2 < (rest.get ⟨k', hk'⟩).2)) = true := by
        simpa using hlt
      rw [hhead, ih hpair.2 hnd' k' hk']
      simp

end RankNodup

section RankClosedForm

variable {α : Type} [LinearOrder α]

/-- Closed form of the average ranks on pairwise-distinct values: the
rank of v is the number of smaller values plus one. -/
theorem rank_values_closed_form (values : List α) (hnd : values.Nodup) :
    _rank_values values = values.map
      (fun v => ((values.countP (fun w => decide (w < v)) : ℕ) : ℚ) + 1) := by
  haveI : IsTotal (Nat × α) (fun p q => p.2 ≤ q.2) := ⟨fun a b => le_total a.2 b.2⟩
  haveI : IsTrans (Nat × α) (fun p q => p.2 ≤ q.2) :=
    ⟨fun a b c hab hbc => le_trans hab hbc⟩
  set n := values.length with hn
  set indexed := List.insertionSort (fun p q : Nat × α => p.2 ≤ q.2)
    values.enum with hidx
  set assoc := rankRuns indexed 0 with hassoc
  have hsorted : indexed.Pairwise (fun p q : Nat × α => p.2 ≤ q.2) :=
    List.sorted_insertionSort _ _
  have hperm_idx : List.Perm indexed values.enum := List.perm_insertionSort _ _
  have hsnd_perm : List.Perm (indexed.map Prod.snd) values := by
    have h := hperm_idx.map Prod.snd
    rw [List.enum_map_snd] at h
    exact h
  have hnd_snd : (indexed.map Prod.snd).Nodup := hsnd_perm.nodup_iff.mpr hnd
  have hkeys : List.Perm (assoc.map Prod.fst) (List.range n) := by
    rw [hassoc, rankRuns_map_fst]
    have h := hperm_idx.map Prod.fst
    rw [List.enum_map_fst] at h
    exact h
  have hnd_keys : (assoc.map Prod.fst).Nodup :=
    hkeys.nodup_iff.mpr (List.nodup_range n)
  have hrv : _rank_values values =
      (List.range n).map (fun j => (assoc.lookup j).getD 0) := rfl
  apply List.ext_getElem
  · rw [hrv, List.length_map, List.length_range, List.length_map]
  · intro j h1 h2
    have hj : j < values.length := by
      rwa [List.length_map] at h2
    simp only [hrv, List.getElem_map, List.getElem_range]
    have hmem_enum : (j, values[j]) ∈ values.enum := by
      rw [List.mem_enum_iff_get?, List.get?_eq_getElem?,
        List.getElem?_eq_getElem hj]
    have hmem_idx : (j, values[j]) ∈ indexed := hperm_idx.mem_iff.mpr hmem_enum
    obtain ⟨k, hget⟩ := List.mem_iff_get.mp hmem_idx
    have hget' : indexed.get ⟨k.1, k.2⟩ = (j, values[j]) := by
      simpa [Fin.eta] using hget
    have hentry0 := rankRuns_entry indexed 0 hnd_snd k.1 k.2
    rw [hget'] at hentry0
    have hentry : (j, ((0 + k.1 : ℕ) : ℚ) + 1) ∈ assoc := hentry0
    have hlook0 := lookup_eq_of_mem hnd_keys _ hentry
    have hlook : assoc.lookup j = some (((0 + k.1 : ℕ) : ℚ) + 1) := hlook0
    have hcnt0 := sorted_position_count indexed hsorted hnd_snd k.1 k.2
    rw [hget'] at hcnt0
    have hcnt : indexed.countP (fun p => decide (p.2 < values[j])) = k.1 := hcnt0
    have hcnt2 : values.countP (fun w => decide (w < values[j])) = k.1 := by
      rw [← hcnt]
      have hpermc := hsnd_perm.countP_eq (fun w => decide (w < values[j]))
      rw [← hpermc, List.countP_map]
      rfl
    rw [hlook, hcnt2]
    simp

end RankClosedForm

section CountLemmas

variable {α : Type} [LinearOrder α]

/-- Trichotomy count: below, above and equal partition the list. -/
theorem countP_lt_gt_eq (l : List α) (v : α) :
    l.countP (fun w => decide (w < v)) + l.countP (fun w => decide (v < w)) +
      l.countP (fun w => decide (w = v)) = l.length := by
  induction l with
  | nil => simp
  | cons a t ih =>
    simp only [List.countP_cons, List.length_cons]
    rcases lt_trichotomy a v with h | h | h
    · have h1 : decide (a < v) = true := by simpa using h
      have h2 : decide (v < a) = false := by
        simpa using not_lt.mpr (le_of_lt h)
      have h3 : decide (a = v) = false := by simpa using ne_of_lt h
      rw [h1, h2, h3]
      norm_num
      omega
    · have h1 : decide (a < v) = false := by
        simpa using not_lt.mpr (le_of_eq h.symm)
      have h2 : decide (v < a) = false := by
        simpa using not_lt.mpr (le_of_eq h)
      have h3 : decide (a = v) = true := by simpa using h
      rw [h1, h2, h3]
      norm_num
      omega
    · have h1 : decide (a < v) = false := by
        simpa using not_lt.mpr (le_of_lt h)
      have h2 : decide (v < a) = true := by simpa using h
      have h3 : decide (a = v) = false := by simpa using ne_of_gt h
      rw [h1, h2, h3]
      norm_num
      omega

/-- On a duplicate-free list a member is counted exactly once. -/
theorem countP_eq_one_of_nodup (l : List α) (hnd : l.Nodup) (v : α)
    (hv : v ∈ l) : l.countP (fun w => decide (w = v)) = 1 := by
  induction l with
  | nil => simp at hv
  | cons a t ih =>
    rw [List.nodup_cons] at hnd
    simp only [List.countP_cons]
    rcases List.mem_cons.mp hv with rfl | hv'
    · have h1 : decide (v = v) = true := by simp
      have h0 : t.countP (fun w => decide (w = v)) = 0 := by
        rw [List.countP_eq_zero]
        intro w hw
        simp only [decide_eq_true_eq]
        intro hcon
        rw [hcon] at hw
        exact hnd.1 hw
      rw [h0, h1]
      simp
    · have h1 : decide (a = v) = false := by
        simp only [decide_eq_false_iff_not]
        intro hcon
        rw [hcon] at hnd
        exact hnd.1 hv'
      rw [ih hnd.2 hv', h1]
      simp

end CountLemmas

section RankMembers

variable {α : Type} [LinearOrder α]

/-- For at least two pairwise-distinct values, both rank 1 and rank 2
occur among the average ranks. -/
theorem rank_values_mem_one_two (values : List α) (h2 : 2 ≤ values.length)
    (hnd : values.Nodup) :
    (1 : ℚ) ∈ _rank_values values ∧ (2 : ℚ) ∈ _rank_values values := by
  set n := values.length with hn
  set indexed := List.insertionSort (fun p q : Nat × α => p.2 ≤ q.2)
    values.enum with hidx
  set assoc := rankRuns indexed 0 with hassoc
  have hperm_idx : List.Perm indexed values.enum := List.perm_insertionSort _ _
  have hsnd_perm : List.Perm (indexed.map Prod.snd) values := by
    have h := hperm_idx.map Prod.snd
    rw [List.enum_map_snd] at h
    exact h
  have hnd_snd : (indexed.map Prod.snd).Nodup := hsnd_perm.nodup_iff.mpr hnd
  have hkeys : List.Perm (assoc.map Prod.fst) (List.range n) := by
    rw [hassoc, rankRuns_map_fst]
    have h := hperm_idx.map Prod.fst
    rw [List.enum_map_fst] at h
    exact h
  have hnd_keys : (assoc.map Prod.fst).Nodup :=
    hkeys.nodup_iff.mpr (List.nodup_range n)
  have hrv : _rank_values values =
      (List.range n).map (fun j => (assoc.lookup j).getD 0) := rfl
  have hp : List.Perm (_rank_values values) (assoc.map Prod.snd) := by
    rw [hrv]
    exact writeback_perm assoc n 0 hnd_keys hkeys
  have hlen_idx : indexed.length = n := by
    rw [hidx, List.length_insertionSort, List.enum_length]
  have he0 := rankRuns_entry indexed 0 hnd_snd 0 (by omega)
  have he1 := rankRuns_entry indexed 0 hnd_snd 1 (by omega)
  constructor
  · apply hp.mem_iff.mpr
    apply List.mem_map.mpr
    exact ⟨_, he0, by norm_num⟩
  · apply hp.mem_iff.mpr
    apply List.mem_map.mpr
    exact ⟨_, he1, by norm_num⟩

end RankMembers

section PearsonLemmas

/-- Zipping a list with itself pairs each element with itself. -/
theorem zip_self_map (r : List ℝ) : r.zip r = r.map (fun x => (x, x)) := by
  induction r with
  | nil => rfl
  | cons a t ih => simp [ih]

/-- Zipping a list with its image pairs each element with its image. -/
theorem zip_map_self (f : ℝ → ℝ) (r : List ℝ) :
    r.zip (r.map f) = r.map (fun x => (x, f x)) := by
  induction r with
  | nil => rfl
  | cons a t ih => simp [ih]

/-- Sum of the pointwise reflections c - x. -/
theorem sum_map_const_sub (r : List ℝ) (c : ℝ) :
    (r.map (fun x => c - x)).sum = (r.length : ℝ) * c - r.sum := by
  induction r with
  | nil => simp
  | cons a t ih =>
    simp only [List.map_cons, List.sum_cons, ih, List.length_cons]
    push_cast
    ring

/-- The centred square sum is positive when the list holds two distinct
values. -/
theorem centred_square_sum_pos (r : List ℝ)
    (hne : ∃ a ∈ r, ∃ b ∈ r, a ≠ b) :
    0 < (r.map (fun x => (x - r.sum / (r.length : ℝ)) *
      (x - r.sum / (r.length : ℝ)))).sum := by
  set m := r.sum / (r.length : ℝ) with hm
  obtain ⟨a, ha, b, hb, hab⟩ := hne
  have hx0 : ∃ x0 ∈ r, x0 ≠ m := by
    by_cases hax : a = m
    · exact ⟨b, hb, by rw [← hax]; exact fun hcon => hab hcon.symm⟩
    · exact ⟨a, ha, hax⟩
  obtain ⟨x0, hx0m, hx0ne⟩ := hx0
  have hnn : ∀ y ∈ r.map (fun x => (x - m) * (x - m)), 0 ≤ y := by
    intro y hy
    obtain ⟨x, _, rfl⟩ := List.mem_map.mp hy
    exact mul_self_nonneg _
  have hmem : (x0 - m) * (x0 - m) ∈ r.map (fun x => (x - m) * (x - m)) :=
    List.mem_map_of_mem _ hx0m
  have hpos : 0 < (x0 - m) * (x0 - m) :=
    mul_self_pos.mpr (sub_ne_zero.mpr hx0ne)
  calc (0 : ℝ) < (x0 - m) * (x0 - m) := hpos
    _ ≤ _ := List.single_le_sum hnn _ hmem

/-- Pearson correlation of a non-constant series with itself is 1. -/
theorem pearson_self (r : List ℝ) (h2 : 2 ≤ r.length)
    (hne : ∃ a ∈ r, ∃ b ∈ r, a ≠ b) :
    _pearson_corr r r = some 1 := by
  have hguard : ¬(r.length < 2 ∨ r.length ≠ r.length) := by
    push_neg
    exact ⟨by omega, rfl⟩
  simp only [_pearson_corr, hguard, if_false, zip_self_map, List.map_map]
  have hS := centred_square_sum_pos r hne
  set m := r.sum / (r.length : ℝ) with hm
  set S := (r.map (fun x => (x - m) * (x - m))).sum with hSdef
  have hc1 : ((fun p : ℝ × ℝ => (p.1 - m) * (p.2 - m)) ∘ fun x => (x, x)) =
      fun x => (x - m) * (x - m) := by
    funext x
    rfl
  have hc2 : ((fun p : ℝ × ℝ => (p.1 - m) * (p.1 - m)) ∘ fun x => (x, x)) =
      fun x => (x - m) * (x - m) := by
    funext x
    rfl
  have hc3 : ((fun p : ℝ × ℝ => (p.2 - m) * (p.2 - m)) ∘ fun x => (x, x)) =
      fun x => (x - m) * (x - m) := by
    funext x
    rfl
  rw [hc1, hc2, hc3]
  rw [if_neg (by push_neg; constructor <;> linarith)]
  congr 1
  rw [Real.sqrt_mul_self (le_of_lt hS)]
  exact div_self (ne_of_gt hS)

/-- Pearson correlation of a non-constant series with its pointwise
reflection c - x is -1. -/
theorem pearson_opposite (r : List ℝ) (c : ℝ) (h2 : 2 ≤ r.length)
    (hne : ∃ a ∈ r, ∃ b ∈ r, a ≠ b) :
    _pearson_corr r (r.map (fun t => c - t)) = some (-1) := by
  have hguard : ¬(r.length < 2 ∨ r.length ≠ (r.map (fun t => c - t)).length) := by
    push_neg
    exact ⟨by omega, by rw [List.length_map]⟩
  simp only [_pearson_corr, hguard, if_false, zip_map_self, List.map_map]
  have hS := centred_square_sum_pos r hne
  set m := r.sum / (r.length : ℝ) with hm
  set S := (r.map (fun x => (x - m) * (x - m))).sum with hSdef
  have hlenpos : (0 : ℝ) < (r.length : ℝ) := by
    have : 0 < r.length := by omega
    exact_mod_cast this
  have hmy : (r.map (fun t => c - t)).sum / (r.length : ℝ) = c - m := by
    rw [sum_map_const_sub, hm]
    field_simp
    ring
  rw [hmy]
  have hc1 : ((fun p : ℝ × ℝ => (p.1 - m) * (p.2 - (c - m))) ∘
      fun x => (x, c - x)) = fun x => -1 * ((x - m) * (x - m)) := by
    funext x
    simp only [Function.comp]
    ring
  have hc2 : ((fun p : ℝ × ℝ => (p.1 - m) * (p.1 - m)) ∘
      fun x => (x, c - x)) = fun x => (x - m) * (x - m) := by
    funext x
    rfl
  have hc3 : ((fun p : ℝ × ℝ => (p.2 - (c - m)) * (p.2 - (c - m))) ∘
      fun x => (x, c - x)) = fun x => (x - m) * (x - m) := by
    funext x
    simp only [Function.comp]
    ring
  rw [hc1, hc2, hc3, List.sum_map_mul_left]
  rw [if_neg (by push_neg; constructor <;> linarith)]
  congr 1
  rw [Real.sqrt_mul_self (le_of_lt hS)]
  field_simp

end PearsonLemmas

section RankNegation

/-- On pairwise-distinct values, negating the inputs reflects the ranks:
the rank of -v among the negated values is n + 1 minus the rank of v. -/
theorem rank_values_neg (x : List ℝ) (hnd : x.Nodup) :
    _rank_values (x.map (fun t => -t)) =
      (_rank_values x).map (fun q => ((x.length : ℚ) + 1) - q) := by
  have hndneg : (x.map (fun t => -t)).Nodup :=
    hnd.map (fun a b h => neg_injective h)
  rw [rank_values_closed_form _ hndneg, rank_values_closed_form x hnd]
  rw [List.map_map, List.map_map]
  apply List.map_congr_left
  intro v hv
  simp only [Function.comp]
  rw [List.countP_map]
  have hcong : x.countP ((fun w => decide (w < -v)) ∘ (fun t => -t)) =
      x.countP (fun w => decide (v < w)) := by
    apply List.countP_congr
    intro w hw
    simp only [Function.comp, decide_eq_true_eq]
    constructor
    · intro h
      exact lt_of_neg_lt_neg h
    · intro h
      exact neg_lt_neg h
  rw [hcong]
  have htri := countP_lt_gt_eq x v
  have hone := countP_eq_one_of_nodup x hnd v hv
  have hsum : x.countP (fun w => decide (w < v)) +
      x.countP (fun w => decide (v < w)) + 1 = x.length := by
    rw [← hone]
    exact htri
  have hsumq : (x.countP (fun w => decide (w < v)) : ℚ) +
      (x.countP (fun w => decide (v < w)) : ℚ) + 1 = (x.length : ℚ) := by
    exact_mod_cast hsum
  linarith

end RankNegation

section ClaimC5

/-- Claim C5: for every list of at least two pairwise-distinct reals,
the Spearman correlation of the list with itself is 1, and with its
pointwise negation is -1. -/
theorem C5_spearman_self_and_negation (x : List ℝ) (h2 : 2 ≤ x.length)
    (hnd : x.Nodup) :
    _spearman_corr x x = some 1 ∧
      _spearman_corr x (x.map (fun t => -t)) = some (-1) := by
  have hlen_r : (_rank_values x).length = x.length := by
    show ((List.range x.length).map _).length = x.length
    rw [List.length_map, List.length_range]
  have hmem := rank_values_mem_one_two x h2 hnd
  set cr : List ℝ := (_rank_values x).map (fun (q : ℚ) => (q : ℝ)) with hcr
  have hlen_cr : cr.length = x.length := by
    rw [hcr, List.length_map, hlen_r]
  have hne_cr : ∃ a ∈ cr, ∃ b ∈ cr, a ≠ b := by
    refine ⟨((1 : ℚ) : ℝ), ?_, ((2 : ℚ) : ℝ), ?_, ?_⟩
    · exact List.mem_map_of_mem _ hmem.1
    · exact List.mem_map_of_mem _ hmem.2
    · norm_num
  constructor
  · unfold _spearman_corr
    rw [if_neg (by omega)]
    exact pearson_self cr (by omega) hne_cr
  · unfold _spearman_corr
    rw [if_neg (by omega)]
    rw [rank_values_neg x hnd]
    have hcast : ((_rank_values x).map
        (fun q => ((x.length : ℚ) + 1) - q)).map (fun (q : ℚ) => (q : ℝ)) =
        cr.map (fun t => ((((x.length : ℚ) + 1 : ℚ)) : ℝ) - t) := by
      rw [hcr, List.map_map, List.map_map]
      apply List.map_congr_left
      intro q hq
      simp only [Function.comp]
      push_cast
      ring
    rw [hcast]
    exact pearson_opposite cr _ (by omega) hne_cr

/-- Witness for C5_spearman_self_and_negation at x = [1, 2]. -/
theorem C5_spearman_self_and_negation_witness :
    _spearman_corr ([1, 2] : List ℝ) [1, 2] = some 1 ∧
      _spearman_corr ([1, 2] : List ℝ)
        (([1, 2] : List ℝ).map (fun t => -t)) = some (-1) :=
  C5_spearman_self_and_negation [1, 2] (by decide)
    (by norm_num [List.nodup_cons, List.mem_singleton])

end ClaimC5
